import Mathlib

/-!
Worker-pool dispatch engine: thread pool and process pool.

A shallow embedding of `15-03 threadpool.h` (class `threadpool`) and of
`15-01 processpool.h` (class `processpool`), followed by the properties of the
bounded request queue and of the parent and child dispatch loops.

Conventions of the embedding:

* a request pointer `T*` is a natural number, `0` being `NULL`;
* `int` and `pid_t` values are integers; the conversion of an `int` to the
  unsigned 64-bit `size_t` is written out (`size_t_of_int`);
* the body between `m_queuelocker.lock()` and `m_queuelocker.unlock()` is one
  atomic step of the sequential model;
* system calls whose result the program inspects take that result from the
  event that is being handled (`recv`, `accept`) or from the list of coming
  results kept in the state (`waitpid`); system calls with an effect on the
  outside world are appended to the list of calls made;
* `setup_sig_pipe`, `addfd` of the descriptors the loops wait on and `printf`
  happen before or beside the loops and are not part of the state.
-/

/-! ## Part 1: `15-03 threadpool.h` -/

/-- Modelled from the spec: class `sem` of `locker.h`, a header that is not part of
the sources. The spec describes it as a counting wait primitive on which consumers
sleep; the only state is the current count. -/
structure sem where
  count : Nat
deriving DecidableEq, Repr

/-- Modelled from the spec: `sem::post` signals one waiting consumer, which raises
the count by one. -/
def sem.post (s : sem) : sem :=
  { count := s.count + 1 }

/-- Modelled from the spec: `sem::wait` blocks the caller until the count is
positive and then lowers it by one. `none` is a caller that stays blocked. -/
def sem.wait (s : sem) : Option sem :=
  match s.count with
  | 0 => none
  | n + 1 => some { count := n }

/-- Conversion of an `int` to `size_t` (unsigned, 64 bits), as performed by the
comparison `m_workqueue.size() > m_max_requests`. -/
def size_t_of_int (i : Int) : Nat :=
  (i % (2 : Int) ^ 64).toNat

/-- Largest value of an `int`. -/
def INT_MAX : Int := 2147483647

/-- The data members of `threadpool< T >` that the queue operations use. -/
structure threadpool where
  m_thread_number : Int
  m_max_requests : Int
  m_workqueue : List Nat
  m_queuestat : sem
  m_stop : Bool
deriving DecidableEq, Repr

namespace threadpool

/-- The constructor `threadpool( thread_number, max_requests )`. It throws when one of
the two arguments is not positive, and when creating or detaching a thread fails
(`threads_ok = false`). -/
def construct (thread_number max_requests : Int) (threads_ok : Bool) :
    Except Unit threadpool :=
  if thread_number ≤ 0 ∨ max_requests ≤ 0 then
    Except.error ()
  else if threads_ok = false then
    Except.error ()
  else
    Except.ok
      { m_thread_number := thread_number
        m_max_requests := max_requests
        m_workqueue := []
        m_queuestat := { count := 0 }
        m_stop := false }

/-- The method `append( T* request )`: the new pool and the returned flag. -/
def append (p : threadpool) (request : Nat) : threadpool × Bool :=
  if p.m_workqueue.length > size_t_of_int p.m_max_requests then
    (p, false)
  else
    ({ p with
        m_workqueue := p.m_workqueue ++ [request]
        m_queuestat := p.m_queuestat.post }, true)

/-- What a worker thread does that is visible from outside. -/
inductive Step where
  | dequeued (request : Nat)
  | processed (request : Nat)
deriving DecidableEq, Repr

/-- How an execution of `run` ends. -/
inductive Status where
  | stopped
  | blocked
  | running
deriving DecidableEq, Repr

/-- The method `run()`, the loop of one worker thread, for at most `fuel` iterations.
The result is the pool, the steps taken in order, and `stopped` when the loop left
through `m_stop`, `blocked` when the thread sleeps in `m_queuestat.wait()`, `running`
when the iterations were used up. -/
def run : Nat → threadpool → threadpool × List Step × Status
  | 0, p => (p, [], Status.running)
  | fuel + 1, p =>
    if p.m_stop then
      (p, [], Status.stopped)
    else
      match p.m_queuestat.wait with
      | none => (p, [], Status.blocked)
      | some c =>
        let p1 := { p with m_queuestat := c }
        match p1.m_workqueue with
        | [] => run fuel p1
        | request :: rest =>
          let p2 := { p1 with m_workqueue := rest }
          if request = 0 then
            let r := run fuel p2
            (r.1, Step.dequeued request :: r.2.1, r.2.2)
          else
            let r := run fuel p2
            (r.1, Step.dequeued request :: Step.processed request :: r.2.1, r.2.2)

/-- Successive calls of `append`, one per request, with the flags they return. -/
def append_all : threadpool → List Nat → threadpool × List Bool
  | p, [] => (p, [])
  | p, request :: rest =>
    let r := append p request
    let q := append_all r.1 rest
    (q.1, r.2 :: q.2)

/-- The requests a worker took off the queue, in order. -/
def dequeued_of : List Step → List Nat
  | [] => []
  | Step.dequeued r :: rest => r :: dequeued_of rest
  | Step.processed _ :: rest => dequeued_of rest

/-- The requests whose `process()` was called, in order. -/
def processed_of : List Step → List Nat
  | [] => []
  | Step.dequeued _ :: rest => processed_of rest
  | Step.processed r :: rest => r :: processed_of rest

/-- One operation on the pool as seen by an outside observer: a producer calls
`append`, or a worker runs one iteration of its loop. -/
inductive Op where
  | append (request : Nat)
  | worker
deriving DecidableEq, Repr

/-- The state of a pool constructed by the constructor: the capacity is a positive
`int`. -/
def constructed (p : threadpool) : Prop :=
  0 < p.m_max_requests ∧ p.m_max_requests ≤ INT_MAX

instance (p : threadpool) : Decidable (constructed p) := by
  unfold constructed; infer_instance

/-- A pool of two threads and capacity two, as the constructor builds it. -/
def pool2 : threadpool :=
  { m_thread_number := 2, m_max_requests := 2, m_workqueue := [], m_queuestat := { count := 0 },
    m_stop := false }

/-- The effect of a sequence of operations, one after the other; a worker operation
is one iteration of the loop of `run`. -/
def exec : threadpool → List Op → threadpool
  | p, [] => p
  | p, Op.append request :: rest => exec (append p request).1 rest
  | p, Op.worker :: rest => exec (run 1 p).1 rest

/-- The steps of a worker that takes the given requests off the queue. -/
def steps_of : List Nat → List Step
  | [] => []
  | request :: rest =>
    if request = 0 then Step.dequeued request :: steps_of rest
    else Step.dequeued request :: Step.processed request :: steps_of rest

/-- The effect of a sequence of operations together with the requests that `append`
accepted and the requests that the worker took off the queue, both in order. -/
def exec_log : threadpool → List Op → threadpool × List Nat × List Nat
  | p, [] => (p, [], [])
  | p, Op.append request :: rest =>
    let a := append p request
    let q := exec_log a.1 rest
    (q.1, (if a.2 = true then request :: q.2.1 else q.2.1), q.2.2)
  | p, Op.worker :: rest =>
    let w := run 1 p
    let q := exec_log w.1 rest
    (q.1, q.2.1, dequeued_of w.2.1 ++ q.2.2)

/-- A pool of capacity two whose queue holds three requests. -/
def pool2_full : threadpool :=
  { m_thread_number := 2, m_max_requests := 2, m_workqueue := [11, 12, 13],
    m_queuestat := { count := 3 }, m_stop := false }

end threadpool

/-! ## Part 2: `15-01 processpool.h` -/

/-- The error code `EINTR` of `<errno.h>` on Linux. -/
def EINTR : Int := 4

/-- The error code `EAGAIN` of `<errno.h>` on Linux. -/
def EAGAIN : Int := 11

/-- The signal number `SIGINT` of `<signal.h>` on Linux. -/
def SIGINT : Int := 2

/-- The signal number `SIGTERM` of `<signal.h>` on Linux. -/
def SIGTERM : Int := 15

/-- The signal number `SIGCHLD` of `<signal.h>` on Linux. -/
def SIGCHLD : Int := 17

/-- The class `process`: the pid of a child and the parent-side end `m_pipefd[0]` of
the channel to it. -/
structure process where
  m_pid : Int
  m_pipefd0 : Int
deriving DecidableEq, Repr

/-- The constructor `process() : m_pid( -1 )`. -/
instance : Inhabited process := ⟨{ m_pid := -1, m_pipefd0 := 0 }⟩

/-- The data members of `processpool< T >`. -/
structure processpool where
  m_process_number : Nat
  m_idx : Int
  m_epollfd : Int
  m_listenfd : Int
  m_stop : Bool
  m_sub_process : List process
deriving DecidableEq, Repr

/-- A system call or handler call with an effect outside the pool. `send` and
`close_pipe` carry the index `i` of the worker as well as the descriptor
`m_sub_process[i].m_pipefd[0]` they are applied to. -/
inductive Call where
  | send (i : Nat) (fd : Int) (msg : Int)
  | close_pipe (i : Nat) (fd : Int)
  | kill (pid : Int) (sig : Int)
  | close (fd : Int)
  | accept (fd : Int)
  | addfd (epollfd : Int) (fd : Int)
  | init (connfd : Int)
  | process (sockfd : Int)
deriving DecidableEq, Repr

/-- One entry of the array filled by `epoll_wait`, with the results of the system
calls made while it is handled: `recv` (return value, `errno`, the word stored in
`client`, the bytes stored in `signals`) and `accept`. -/
structure epoll_event where
  fd : Int
  epollin : Bool
  recv_ret : Int
  recv_errno : Int
  client : Int
  signals : List Int
  accept_ret : Int
deriving DecidableEq, Repr

/-- One return of `epoll_wait`: the number it returns, `errno`, and the array. -/
structure epoll_wait_ret where
  number : Int
  errno : Int
  events : List epoll_event
deriving DecidableEq, Repr

/-- The state of `run_parent` and of `run_child` after `setup_sig_pipe`: the pool, the
read end of the signal pipe, the locals `sub_process_counter` and `new_conn` (parent),
the local `pipefd` (child), the values the coming calls of `waitpid` return, and the
calls made so far. -/
structure frame where
  pool : processpool
  sig_pipefd0 : Int
  sub_process_counter : Nat
  new_conn : Int
  pipefd : Int
  waitpid_rets : List Int
  calls : List Call
deriving DecidableEq, Repr

namespace processpool

/-- The element `m_sub_process[i]`. -/
def sub_process (p : processpool) (i : Nat) : process :=
  p.m_sub_process.getD i default

/-- The scan `do { if( m_sub_process[i].m_pid != -1 ) break; i = (i+1)%m_process_number; }
while( i != sub_process_counter )`, for at most `fuel` iterations: the value of `i`
when the loop is left, `none` when the iterations were used up. -/
def scan (p : processpool) (sub_process_counter : Nat) : Nat → Nat → Option Nat
  | 0, _ => none
  | fuel + 1, i =>
    if (sub_process p i).m_pid ≠ -1 then
      some i
    else
      let i1 := (i + 1) % p.m_process_number
      if i1 ≠ sub_process_counter then
        scan p sub_process_counter fuel i1
      else
        some i1

/-- The branch `sockfd == m_listenfd` of `run_parent`. The flag says whether the
branch leaves the loop over the events with `break`. -/
def on_listen (s : frame) : Option (frame × Bool) :=
  match scan s.pool s.sub_process_counter s.pool.m_process_number s.sub_process_counter with
  | none => none
  | some i =>
    if (sub_process s.pool i).m_pid = -1 then
      some ({ s with pool := { s.pool with m_stop := true } }, true)
    else
      some ({ s with
                sub_process_counter := (i + 1) % s.pool.m_process_number
                calls := s.calls ++ [Call.send i (sub_process s.pool i).m_pipefd0 s.new_conn] },
            false)

/-- The body of the loop `for( int i = 0; i < m_process_number; ++i )` that follows a
successful `waitpid`: close the channel of a worker whose pid is `pid` and mark it
dead. -/
def join_child (pid : Int) (s : frame) (i : Nat) : frame :=
  if (sub_process s.pool i).m_pid = pid then
    { s with
        calls := s.calls ++ [Call.close_pipe i (sub_process s.pool i).m_pipefd0]
        pool := { s.pool with
          m_sub_process :=
            s.pool.m_sub_process.set i { sub_process s.pool i with m_pid := -1 } } }
  else
    s

/-- The loop `while ( ( pid = waitpid( -1, &stat, WNOHANG ) ) > 0 )` of the parent. The
first argument holds the values the coming calls of `waitpid` return; when it is used
up no child is left to wait for and `waitpid` fails. -/
def reap : List Int → frame → frame
  | [], s => { s with waitpid_rets := [] }
  | pid :: rest, s =>
    if pid > 0 then
      reap rest ((List.range s.pool.m_process_number).foldl (join_child pid) s)
    else
      { s with waitpid_rets := rest }

/-- The body of the loop that recomputes `m_stop` after reaping. -/
def keep_running (s : frame) (i : Nat) : frame :=
  if (sub_process s.pool i).m_pid ≠ -1 then
    { s with pool := { s.pool with m_stop := false } }
  else
    s

/-- The body of the loop of the cases `SIGTERM` and `SIGINT` of the parent. -/
def kill_child (s : frame) (i : Nat) : frame :=
  let pid := (sub_process s.pool i).m_pid
  if pid ≠ -1 then
    { s with calls := s.calls ++ [Call.kill pid SIGTERM] }
  else
    s

/-- The statement `switch( signals[i] )` of `run_parent`. -/
def parent_signal (s : frame) (sig : Int) : frame :=
  if sig = SIGCHLD then
    let s1 := reap s.waitpid_rets s
    let s2 := { s1 with pool := { s1.pool with m_stop := true } }
    (List.range s2.pool.m_process_number).foldl keep_running s2
  else if sig = SIGTERM ∨ sig = SIGINT then
    (List.range s.pool.m_process_number).foldl kill_child s
  else
    s

/-- The body of the loop over the events in `run_parent`. The flag says whether the
loop is left with `break`. -/
def parent_event (s : frame) (e : epoll_event) : Option (frame × Bool) :=
  if e.fd = s.pool.m_listenfd then
    on_listen s
  else if e.fd = s.sig_pipefd0 ∧ e.epollin = true then
    if e.recv_ret ≤ 0 then
      some (s, false)
    else
      some ((e.signals.take e.recv_ret.toNat).foldl parent_signal s, false)
  else
    some (s, false)

/-- The loop `for ( int i = 0; i < number; i++ )` of `run_parent`. -/
def parent_events : List epoll_event → frame → Option frame
  | [], s => some s
  | e :: rest, s =>
    match parent_event s e with
    | none => none
    | some (s1, true) => some s1
    | some (s1, false) => parent_events rest s1

/-- The loop `while( ! m_stop )` of `run_parent` and the `close( m_epollfd )` after it,
over the successive returns of `epoll_wait`. The flag is `true` when the function
has returned and `false` when it is waiting in `epoll_wait`. -/
def run_parent : List epoll_wait_ret → frame → Option (frame × Bool)
  | [], s =>
    if s.pool.m_stop then
      some ({ s with calls := s.calls ++ [Call.close s.pool.m_epollfd] }, true)
    else
      some (s, false)
  | w :: ws, s =>
    if s.pool.m_stop then
      some ({ s with calls := s.calls ++ [Call.close s.pool.m_epollfd] }, true)
    else if w.number < 0 ∧ w.errno ≠ EINTR then
      some ({ s with calls := s.calls ++ [Call.close s.pool.m_epollfd] }, true)
    else
      match parent_events (w.events.take w.number.toNat) s with
      | none => none
      | some s1 => run_parent ws s1

/-- The loop `while ( ( pid = waitpid( -1, &stat, WNOHANG ) ) > 0 ) continue;` of the
child: what is left of the values `waitpid` returns. -/
def child_reap : List Int → List Int
  | [] => []
  | pid :: rest => if pid > 0 then child_reap rest else rest

/-- The statement `switch( signals[i] )` of `run_child`. -/
def child_signal (s : frame) (sig : Int) : frame :=
  if sig = SIGCHLD then
    { s with waitpid_rets := child_reap s.waitpid_rets }
  else if sig = SIGTERM ∨ sig = SIGINT then
    { s with pool := { s.pool with m_stop := true } }
  else
    s

/-- The branch `( sockfd == pipefd ) && ( events[i].events & EPOLLIN )` of
`run_child`. -/
def on_pipe (s : frame) (e : epoll_event) : frame :=
  if (e.recv_ret < 0 ∧ e.recv_errno ≠ EAGAIN) ∨ e.recv_ret = 0 then
    s
  else
    let s1 := { s with calls := s.calls ++ [Call.accept s.pool.m_listenfd] }
    if e.accept_ret < 0 then
      s1
    else
      { s1 with
          calls := s1.calls ++ [Call.addfd s.pool.m_epollfd e.accept_ret, Call.init e.accept_ret] }

/-- The body of the loop over the events in `run_child`. -/
def child_event (s : frame) (e : epoll_event) : frame :=
  if e.fd = s.pipefd ∧ e.epollin = true then
    on_pipe s e
  else if e.fd = s.sig_pipefd0 ∧ e.epollin = true then
    if e.recv_ret ≤ 0 then
      s
    else
      (e.signals.take e.recv_ret.toNat).foldl child_signal s
  else if e.epollin = true then
    { s with calls := s.calls ++ [Call.process e.fd] }
  else
    s

/-- The loop `while( ! m_stop )` of `run_child` and the calls of `close` after it. -/
def run_child : List epoll_wait_ret → frame → frame × Bool
  | [], s =>
    if s.pool.m_stop then
      ({ s with calls := s.calls ++ [Call.close s.pipefd, Call.close s.pool.m_epollfd] }, true)
    else
      (s, false)
  | w :: ws, s =>
    if s.pool.m_stop then
      ({ s with calls := s.calls ++ [Call.close s.pipefd, Call.close s.pool.m_epollfd] }, true)
    else if w.number < 0 ∧ w.errno ≠ EINTR then
      ({ s with calls := s.calls ++ [Call.close s.pipefd, Call.close s.pool.m_epollfd] }, true)
    else
      run_child ws ((w.events.take w.number.toNat).foldl child_event s)

/-- The pid `m_sub_process[i].m_pid`. -/
def pid_at (s : frame) (i : Nat) : Int :=
  (sub_process s.pool i).m_pid

/-- Worker `i` is live: its pid is not the dead sentinel `-1`. -/
def live (s : frame) (i : Nat) : Bool :=
  decide (pid_at s i ≠ -1)

/-- The workers the parent has sent the token to, in order. -/
def sent_to : List Call → List Nat
  | [] => []
  | Call.send i _ _ :: rest => i :: sent_to rest
  | _ :: rest => sent_to rest

/-- The workers whose channel the parent has closed, in order. -/
def closed : List Call → List Nat
  | [] => []
  | Call.close_pipe i _ :: rest => i :: closed rest
  | _ :: rest => closed rest

/-- The number of calls of `accept`. -/
def accepts : List Call → Nat
  | [] => 0
  | Call.accept _ :: rest => accepts rest + 1
  | _ :: rest => accepts rest

/-- A listening-readiness event. -/
def listen_event (s : frame) : epoll_event :=
  { fd := s.pool.m_listenfd, epollin := true, recv_ret := 0, recv_errno := 0, client := 0,
    signals := [], accept_ret := 0 }

/-- A run of `k` returns of `epoll_wait`, each with one listening-readiness event. -/
def listen_run (s : frame) (k : Nat) : List epoll_wait_ret :=
  List.replicate k { number := 1, errno := 0, events := [listen_event s] }

/-- The state the parent is in while it runs: between one and sixteen workers, one
table entry for each, and the cursor inside the table. -/
def parent_ok (s : frame) : Prop :=
  1 ≤ s.pool.m_process_number ∧ s.pool.m_process_number ≤ 16 ∧
    s.pool.m_sub_process.length = s.pool.m_process_number ∧
    s.sub_process_counter < s.pool.m_process_number

instance (s : frame) : Decidable (parent_ok s) := by
  unfold parent_ok; infer_instance

/-- The workers in cyclic index order starting from `c`. -/
def cyclic (n c : Nat) : List Nat :=
  (List.range n).map (fun k => (c + k) % n)

/-- A parent with four workers, all live, that has dispatched nothing yet. -/
def parent4 : frame :=
  { pool :=
      { m_process_number := 4, m_idx := -1, m_epollfd := 3, m_listenfd := 5, m_stop := false,
        m_sub_process :=
          [{ m_pid := 101, m_pipefd0 := 6 }, { m_pid := 102, m_pipefd0 := 8 },
           { m_pid := 103, m_pipefd0 := 10 }, { m_pid := 104, m_pipefd0 := 12 }] }
    sig_pipefd0 := 4
    sub_process_counter := 0
    new_conn := 1
    pipefd := 0
    waitpid_rets := []
    calls := [] }

/-- A parent with four workers that have all been reaped, with a dispatch to worker 1
behind it. -/
def parent4_dead : frame :=
  { pool :=
      { m_process_number := 4, m_idx := -1, m_epollfd := 3, m_listenfd := 5, m_stop := false,
        m_sub_process :=
          [{ m_pid := -1, m_pipefd0 := 6 }, { m_pid := -1, m_pipefd0 := 8 },
           { m_pid := -1, m_pipefd0 := 10 }, { m_pid := -1, m_pipefd0 := 12 }] }
    sig_pipefd0 := 4
    sub_process_counter := 2
    new_conn := 1
    pipefd := 0
    waitpid_rets := []
    calls := [Call.send 1 8 1, Call.close_pipe 0 6, Call.close_pipe 1 8, Call.close_pipe 2 10,
      Call.close_pipe 3 12] }

/-- A return of `epoll_wait` with two entries for the listening socket. -/
def two_listen_events : epoll_wait_ret :=
  { number := 2, errno := 0
    events := [listen_event parent4, listen_event parent4] }

/-- A child (worker 1 of four) waiting for events, with nothing done yet. -/
def child1 : frame :=
  { pool :=
      { m_process_number := 4, m_idx := 1, m_epollfd := 3, m_listenfd := 5, m_stop := false,
        m_sub_process :=
          [{ m_pid := 101, m_pipefd0 := 6 }, { m_pid := 0, m_pipefd0 := 8 }] }
    sig_pipefd0 := 4
    sub_process_counter := 0
    new_conn := 1
    pipefd := 9
    waitpid_rets := []
    calls := [] }

/-- Readiness of the control channel of `child1` where `recv` fails with `EAGAIN` and
the following `accept` returns descriptor 10. -/
def pipe_event_eagain : epoll_event :=
  { fd := 9, epollin := true, recv_ret := -1, recv_errno := 11, client := 0, signals := [],
    accept_ret := 10 }

/-- Readiness of the control channel of `child1` where `recv` reads the four bytes of
the token and the following `accept` returns descriptor 10. -/
def pipe_event_token : epoll_event :=
  { fd := 9, epollin := true, recv_ret := 4, recv_errno := 0, client := 1, signals := [],
    accept_ret := 10 }

/-- The pids that the loop around `waitpid` reaps: the values returned before the first
one that is not positive. -/
def reaped (rets : List Int) : List Int :=
  rets.takeWhile (fun pid => decide (pid > 0))

/-- The entry of a worker after the parent has marked it dead. -/
def marked_dead (w : process) : process :=
  { w with m_pid := -1 }

/-- The calls of `kill` that ask the live workers of a list to terminate, in order. -/
def kills (s : frame) (l : List Nat) : List Call :=
  (l.filter (live s)).map (fun i => Call.kill (pid_at s i) SIGTERM)

/-- A parent with four workers of which worker 1 is dead, with the values the coming
calls of `waitpid` return. -/
def parent4_one_dead : frame :=
  { pool :=
      { m_process_number := 4, m_idx := -1, m_epollfd := 3, m_listenfd := 5, m_stop := false,
        m_sub_process :=
          [{ m_pid := 101, m_pipefd0 := 6 }, { m_pid := -1, m_pipefd0 := 8 },
           { m_pid := 103, m_pipefd0 := 10 }, { m_pid := 104, m_pipefd0 := 12 }] }
    sig_pipefd0 := 4
    sub_process_counter := 1
    new_conn := 1
    pipefd := 0
    waitpid_rets := [104, 101, 0, 103]
    calls := [Call.close_pipe 1 8] }

/-- Readiness of the signal pipe of the parent with the bytes of `SIGTERM` and of
`SIGCHLD`. -/
def signal_event_term_chld : epoll_event :=
  { fd := 4, epollin := true, recv_ret := 2, recv_errno := 0, client := 0, signals := [15, 17],
    accept_ret := 0 }

/-- The worker that dispatch number `j` (counted from 0) of a run selects when the
live workers are taken in turn from the list `l`. -/
def in_turn (l : List Nat) (j : Nat) : Nat :=
  l.getD (j % l.length) 0

/-- The cursor after `k` dispatches that take the workers of `l` in turn. -/
def cursor_after (s : frame) (l : List Nat) (k : Nat) : Nat :=
  match k with
  | 0 => s.sub_process_counter
  | j + 1 => (in_turn l j + 1) % s.pool.m_process_number

/-- The parent `parent4_one_dead` at a time when its three live workers have exited:
`waitpid` returns their pids and then fails. -/
def parent4_last_exit : frame :=
  { parent4_one_dead with waitpid_rets := [103, 101, 104, -1] }

/-- Readiness of the signal pipe of the parent with one `SIGCHLD` byte. -/
def signal_event_chld : epoll_event :=
  { fd := 4, epollin := true, recv_ret := 1, recv_errno := 0, client := 0, signals := [17],
    accept_ret := 0 }

/-- A return of `epoll_wait` with the signal pipe first and the listening socket
second and third. -/
def signal_then_listen : epoll_wait_ret :=
  { number := 3, errno := 0
    events := [signal_event_chld, listen_event parent4, listen_event parent4] }

/-- The state of the parent after it has sent the token to worker `i` and moved the
cursor past it. -/
def token_sent (s : frame) (i : Nat) : frame :=
  { s with
      sub_process_counter := (i + 1) % s.pool.m_process_number
      calls := s.calls ++ [Call.send i (sub_process s.pool i).m_pipefd0 s.new_conn] }

/-- The state of the parent after it has found no live worker. -/
def stop_set (s : frame) : frame :=
  { s with pool := { s.pool with m_stop := true } }

/-- The live workers in cyclic index order starting from the cursor. -/
def live_cyclic (s : frame) : List Nat :=
  (cyclic s.pool.m_process_number s.sub_process_counter).filter (live s)

/-- The calls that send the token of `s` to the workers of a list, in order. -/
def sends (s : frame) (l : List Nat) : List Call :=
  l.map (fun i => Call.send i (sub_process s.pool i).m_pipefd0 s.new_conn)

end processpool

/-! ## Properties of the thread pool -/

namespace threadpool

theorem size_t_of_capacity (p : threadpool) (h : constructed p) :
    size_t_of_int p.m_max_requests = p.m_max_requests.toNat := by
  obtain ⟨h0, h1⟩ := h
  unfold INT_MAX at h1
  unfold size_t_of_int
  rw [Int.emod_eq_of_lt (by omega) (by norm_num; omega)]

theorem append_false_iff (p : threadpool) (request : Nat) (h : constructed p) :
    (append p request).2 = false ↔ (p.m_workqueue.length : Int) > p.m_max_requests := by
  have hk := size_t_of_capacity p h
  obtain ⟨h0, _⟩ := h
  unfold append
  rw [hk]
  by_cases hc : p.m_workqueue.length > p.m_max_requests.toNat
  · simp only [hc, if_true, true_iff]
    omega
  · simp only [hc, if_false, Bool.true_eq_false, false_iff]
    omega

theorem dequeued_steps_of (q : List Nat) : dequeued_of (steps_of q) = q := by
  induction q with
  | nil => rfl
  | cons r rest ih =>
    by_cases hr : r = 0
    · simp [steps_of, hr, dequeued_of, ih]
    · simp [steps_of, hr, dequeued_of, ih]

theorem processed_steps_of (q : List Nat) :
    processed_of (steps_of q) = q.filter (fun r => decide (r ≠ 0)) := by
  induction q with
  | nil => rfl
  | cons r rest ih =>
    by_cases hr : r = 0
    · simp [steps_of, hr, processed_of, ih]
    · simp [steps_of, hr, processed_of, ih]

theorem run_drains (fuel : Nat) (p : threadpool) (hstop : p.m_stop = false)
    (hsem : p.m_queuestat.count = p.m_workqueue.length) (hfuel : p.m_workqueue.length < fuel) :
    run fuel p =
      ({ p with m_workqueue := [], m_queuestat := { count := 0 } }, steps_of p.m_workqueue,
        Status.blocked) := by
  induction fuel generalizing p with
  | zero => omega
  | succ fuel ih =>
    obtain ⟨tn, mr, q, ⟨c⟩, st⟩ := p
    simp only at hstop hsem hfuel
    subst hstop
    subst hsem
    cases q with
    | nil => simp [run, sem.wait, steps_of]
    | cons r rest =>
      have h1 := ih ⟨tn, mr, rest, ⟨rest.length⟩, false⟩ rfl rfl
        (by simp only [List.length_cons] at hfuel; show rest.length < fuel; omega)
      by_cases hr : r = 0
      · simp [run, sem.wait, steps_of, hr, h1]
      · simp [run, sem.wait, steps_of, hr, h1]

theorem append_all_true (ts : List Nat) (p : threadpool)
    (hall : ∀ b ∈ (append_all p ts).2, b = true) :
    (append_all p ts).1 =
      { p with
          m_workqueue := p.m_workqueue ++ ts
          m_queuestat := { count := p.m_queuestat.count + ts.length } } := by
  induction ts generalizing p with
  | nil => simp [append_all]
  | cons t rest ih =>
    simp only [append_all, List.mem_cons, forall_eq_or_imp] at hall
    obtain ⟨h1, h2⟩ := hall
    have h3 := ih (append p t).1 h2
    simp only [append_all]
    rw [h3]
    unfold append at h1 ⊢
    by_cases hc : p.m_workqueue.length > size_t_of_int p.m_max_requests
    · simp [hc] at h1
    · simp only [hc, if_false, sem.post, List.append_assoc, List.singleton_append,
        List.length_cons]
      congr 2
      omega

theorem run_takes (k : Nat) (p : threadpool) (hstop : p.m_stop = false)
    (hsem : p.m_queuestat.count = p.m_workqueue.length) (hk : k ≤ p.m_workqueue.length) :
    run k p =
      ({ p with
          m_workqueue := p.m_workqueue.drop k
          m_queuestat := { count := p.m_workqueue.length - k } },
        steps_of (p.m_workqueue.take k), Status.running) := by
  induction k generalizing p with
  | zero =>
    obtain ⟨tn, mr, q, ⟨c⟩, st⟩ := p
    simp only at hsem
    subst hsem
    simp [run, steps_of]
  | succ k ih =>
    obtain ⟨tn, mr, q, ⟨c⟩, st⟩ := p
    simp only at hstop hsem hk
    subst hstop
    subst hsem
    cases q with
    | nil => simp at hk
    | cons r rest =>
      have h1 := ih ⟨tn, mr, rest, ⟨rest.length⟩, false⟩ rfl rfl
        (by simp only [List.length_cons] at hk; show k ≤ rest.length; omega)
      by_cases hr : r = 0
      · simp [run, sem.wait, steps_of, hr, h1]
      · simp [run, sem.wait, steps_of, hr, h1]

theorem append_all_append (ts us : List Nat) (p : threadpool) :
    append_all p (ts ++ us) =
      ((append_all (append_all p ts).1 us).1,
        (append_all p ts).2 ++ (append_all (append_all p ts).1 us).2) := by
  induction ts generalizing p with
  | nil => simp [append_all]
  | cons t rest ih => simp [append_all, ih]

theorem append_all_fits (ts : List Nat) (p : threadpool) (h : constructed p)
    (hfit : p.m_workqueue.length + ts.length ≤ p.m_max_requests.toNat + 1) :
    (append_all p ts).2 = List.replicate ts.length true := by
  induction ts generalizing p with
  | nil => simp [append_all]
  | cons t rest ih =>
    have hk := size_t_of_capacity p h
    simp only [List.length_cons] at hfit
    have hc : ¬ p.m_workqueue.length > size_t_of_int p.m_max_requests := by
      rw [hk]; omega
    have h1 : append p t =
        ({ p with
            m_workqueue := p.m_workqueue ++ [t]
            m_queuestat := p.m_queuestat.post }, true) := by
      unfold append
      simp only [hc, if_false]
    simp only [append_all, h1, List.length_cons, List.replicate_succ, List.cons.injEq, true_and]
    apply ih
    · exact h
    · simp only [List.length_append, List.length_singleton]
      omega

theorem exec_length_le (ops : List Op) (p : threadpool) (h : constructed p)
    (hlen : p.m_workqueue.length ≤ p.m_max_requests.toNat + 1) :
    (exec p ops).m_workqueue.length ≤ p.m_max_requests.toNat + 1 ∧
      (exec p ops).m_max_requests = p.m_max_requests := by
  induction ops generalizing p with
  | nil => exact ⟨hlen, rfl⟩
  | cons op rest ih =>
    cases op with
    | append t =>
      have hk := size_t_of_capacity p h
      simp only [exec]
      by_cases hc : p.m_workqueue.length > size_t_of_int p.m_max_requests
      · have h1 : append p t = (p, false) := by unfold append; simp only [hc, if_true]
        rw [h1]
        exact ih p h hlen
      · have h1 : append p t =
            ({ p with
                m_workqueue := p.m_workqueue ++ [t]
                m_queuestat := p.m_queuestat.post }, true) := by
          unfold append
          simp only [hc, if_false]
        rw [h1]
        rw [hk] at hc
        exact ih _ h (by simp only [List.length_append, List.length_singleton]; omega)
    | worker =>
      simp only [exec]
      have hw : (run 1 p).1.m_max_requests = p.m_max_requests ∧
          (run 1 p).1.m_workqueue.length ≤ p.m_workqueue.length := by
        obtain ⟨tn, mr, q, ⟨c⟩, st⟩ := p
        cases st <;> cases c <;> cases q <;> simp [run, sem.wait]
        split <;> simp [run]
      have h2 : constructed (run 1 p).1 := by
        unfold constructed at h ⊢
        rw [hw.1]; exact h
      have h3 := ih (run 1 p).1 h2 (by rw [hw.1]; omega)
      rw [hw.1] at h3
      exact h3

theorem construct_constructed (thread_number max_requests : Int) (threads_ok : Bool)
    (p : threadpool) (hmax : max_requests ≤ INT_MAX)
    (h : construct thread_number max_requests threads_ok = Except.ok p) :
    constructed p ∧ p.m_workqueue = [] ∧ p.m_queuestat.count = 0 ∧ p.m_stop = false := by
  unfold construct at h
  split at h
  · simp at h
  · split at h
    · simp at h
    · rename_i h1 _
      simp only [Except.ok.injEq] at h
      subst h
      refine ⟨⟨?_, hmax⟩, rfl, rfl, rfl⟩
      show 0 < max_requests
      omega

theorem exec_log_fifo (ops : List Op) :
    ∀ p : threadpool, p.m_queuestat.count = p.m_workqueue.length →
      p.m_workqueue ++ (exec_log p ops).2.1 =
        (exec_log p ops).2.2 ++ (exec_log p ops).1.m_workqueue := by
  induction ops with
  | nil =>
    intro p _
    simp [exec_log]
  | cons op rest ih =>
    intro p hsem
    cases op with
    | append t =>
      simp only [exec_log]
      by_cases hc : p.m_workqueue.length > size_t_of_int p.m_max_requests
      · have h1 : append p t = (p, false) := by unfold append; simp only [hc, if_true]
        rw [h1]
        simpa using ih p hsem
      · have h1 : append p t =
            ({ p with
                m_workqueue := p.m_workqueue ++ [t]
                m_queuestat := p.m_queuestat.post }, true) := by
          unfold append
          simp only [hc, if_false]
        rw [h1]
        have h2 := ih { p with
                m_workqueue := p.m_workqueue ++ [t]
                m_queuestat := p.m_queuestat.post } (by simp [sem.post, hsem])
        simpa using h2
    | worker =>
      simp only [exec_log]
      obtain ⟨tn, mr, q, ⟨c⟩, st⟩ := p
      simp only at hsem
      subst hsem
      cases st with
      | true => simpa [run, dequeued_of] using ih ⟨tn, mr, q, ⟨q.length⟩, true⟩ rfl
      | false =>
        cases q with
        | nil => simpa [run, sem.wait, dequeued_of] using ih ⟨tn, mr, [], ⟨0⟩, false⟩ rfl
        | cons r rest1 =>
          have h2 := ih ⟨tn, mr, rest1, ⟨rest1.length⟩, false⟩ rfl
          by_cases hr : r = 0
          · simpa [run, sem.wait, dequeued_of, hr] using h2
          · simpa [run, sem.wait, dequeued_of, hr] using h2

/-- C1: evaluation of the code at capacity two. The constructor builds the pool, and
starting from its empty queue the appends of three requests all return true with no
dequeue in between: the third call, which is call number K+1, is accepted while the
first two requests are still queued, and only the fourth call returns false. -/
theorem append_third_call_accepted_at_capacity_two :
    construct 2 2 true = Except.ok pool2 ∧
      (append_all pool2 [11, 12]).2 = [true, true] ∧
      (append_all pool2 [11, 12]).1.m_workqueue = [11, 12] ∧
      (append (append_all pool2 [11, 12]).1 13).2 = true ∧
      (append_all pool2 [11, 12, 13, 14]).2 = [true, true, true, false] :=
  ⟨rfl, by decide⟩

/-- C5: when the appends of the requests `ts` to a fresh pool all succeed, a single
worker running its loop takes them off the queue in exactly the order `ts`, one at a
time from the front: after `k` iterations it has dequeued the first `k` requests and
the queue holds the others; with more than `ts.length` iterations it ends asleep on
the empty queue having dequeued `ts`, each request once, and having called `process`
on the requests that are not null, in the same order. Also when appends and
iterations of the worker alternate in any way, the accepted requests are, in order,
the dequeued requests followed by the requests still queued. -/
theorem single_worker_drains_in_append_order (p : threadpool) (ts : List Nat) (fuel : Nat)
    (hq : p.m_workqueue = []) (hs : p.m_queuestat.count = 0) (hstop : p.m_stop = false)
    (hall : ∀ b ∈ (append_all p ts).2, b = true) (hfuel : ts.length < fuel) :
    (∀ k, k ≤ ts.length →
        dequeued_of (run k (append_all p ts).1).2.1 = ts.take k ∧
          (run k (append_all p ts).1).1.m_workqueue = ts.drop k) ∧
      (run fuel (append_all p ts).1).2.2 = Status.blocked ∧
      (run fuel (append_all p ts).1).1.m_workqueue = [] ∧
      dequeued_of (run fuel (append_all p ts).1).2.1 = ts ∧
      processed_of (run fuel (append_all p ts).1).2.1 = ts.filter (fun r => decide (r ≠ 0)) ∧
      ((∀ t ∈ ts, t ≠ 0) → processed_of (run fuel (append_all p ts).1).2.1 = ts) ∧
      (∀ ops, (exec_log p ops).2.1 = (exec_log p ops).2.2 ++ (exec_log p ops).1.m_workqueue) := by
  have hlog : ∀ ops,
      (exec_log p ops).2.1 = (exec_log p ops).2.2 ++ (exec_log p ops).1.m_workqueue := by
    intro ops
    have hx := exec_log_fifo ops p (by rw [hs, hq]; rfl)
    rw [hq, List.nil_append] at hx
    exact hx
  have h1 := append_all_true ts p hall
  rw [hq, hs] at h1
  simp only [List.nil_append, Nat.zero_add] at h1
  rw [h1]
  refine ⟨?_, ?_⟩
  · intro k hk
    rw [run_takes k ⟨p.m_thread_number, p.m_max_requests, ts, ⟨ts.length⟩, p.m_stop⟩ hstop rfl hk]
    exact ⟨dequeued_steps_of _, rfl⟩
  · rw [run_drains fuel ⟨p.m_thread_number, p.m_max_requests, ts, ⟨ts.length⟩, p.m_stop⟩ hstop rfl
      hfuel]
    refine ⟨rfl, rfl, dequeued_steps_of _, processed_steps_of _, ?_, hlog⟩
    intro hne
    show processed_of (steps_of ts) = ts
    rw [processed_steps_of, List.filter_eq_self]
    intro t ht
    simpa using hne t ht

/-- C5, at a concrete input: three requests appended to the pool of capacity two. -/
theorem single_worker_drains_in_append_order_witness :
    (∀ k, k ≤ [11, 12, 13].length →
        dequeued_of (run k (append_all pool2 [11, 12, 13]).1).2.1 = [11, 12, 13].take k ∧
          (run k (append_all pool2 [11, 12, 13]).1).1.m_workqueue = [11, 12, 13].drop k) ∧
      (run 4 (append_all pool2 [11, 12, 13]).1).2.2 = Status.blocked ∧
      (run 4 (append_all pool2 [11, 12, 13]).1).1.m_workqueue = [] ∧
      dequeued_of (run 4 (append_all pool2 [11, 12, 13]).1).2.1 = [11, 12, 13] ∧
      processed_of (run 4 (append_all pool2 [11, 12, 13]).1).2.1 =
        [11, 12, 13].filter (fun r => decide (r ≠ 0)) ∧
      ((∀ t ∈ [11, 12, 13], t ≠ 0) →
        processed_of (run 4 (append_all pool2 [11, 12, 13]).1).2.1 = [11, 12, 13]) ∧
      (∀ ops, (exec_log pool2 ops).2.1 =
        (exec_log pool2 ops).2.2 ++ (exec_log pool2 ops).1.m_workqueue) :=
  single_worker_drains_in_append_order pool2 [11, 12, 13] 4 rfl rfl rfl (by decide) (by decide)

/-- C6: for a constructed pool and any request, `append` returns false exactly when
the queue length is strictly greater than the capacity; when it returns false the pool
(queue and semaphore count included) is unchanged; when it returns true the new queue
is the old queue with the request at the back, the semaphore count is one higher and
nothing else has changed. -/
theorem append_rejects_iff_length_exceeds_capacity (p : threadpool) (request : Nat)
    (h : constructed p) :
    ((append p request).2 = false ↔ (p.m_workqueue.length : Int) > p.m_max_requests) ∧
      ((append p request).2 = false → (append p request).1 = p) ∧
      ((append p request).2 = true →
        (append p request).1 =
          { p with
              m_workqueue := p.m_workqueue ++ [request]
              m_queuestat := { count := p.m_queuestat.count + 1 } }) := by
  refine ⟨append_false_iff p request h, ?_, ?_⟩
  · intro hf
    unfold append at hf ⊢
    by_cases hc : p.m_workqueue.length > size_t_of_int p.m_max_requests
    · simp only [hc, if_true]
    · simp [hc] at hf
  · intro ht
    unfold append at ht ⊢
    by_cases hc : p.m_workqueue.length > size_t_of_int p.m_max_requests
    · simp [hc] at ht
    · simp only [hc, if_false, sem.post]

/-- C6, at a concrete input: a pool of capacity two whose queue holds three
requests. -/
theorem append_rejects_iff_length_exceeds_capacity_witness :
    constructed pool2_full ∧
      (((append pool2_full 14).2 = false ↔
          (pool2_full.m_workqueue.length : Int) > pool2_full.m_max_requests) ∧
        ((append pool2_full 14).2 = false → (append pool2_full 14).1 = pool2_full) ∧
        ((append pool2_full 14).2 = true →
          (append pool2_full 14).1 =
            { pool2_full with
                m_workqueue := pool2_full.m_workqueue ++ [14]
                m_queuestat := { count := pool2_full.m_queuestat.count + 1 } })) :=
  ⟨by decide, append_rejects_iff_length_exceeds_capacity pool2_full 14 (by decide)⟩

/-- C7: evaluation of the code at capacity two. After three appends to the empty queue
of the constructed pool, with no operation running, the queue holds three requests,
which is more than the capacity. -/
theorem queue_length_exceeds_capacity_two :
    constructed pool2 ∧
      (exec pool2 [Op.append 11, Op.append 12, Op.append 13]).m_workqueue = [11, 12, 13] ∧
      ¬ ((exec pool2 [Op.append 11, Op.append 12, Op.append 13]).m_workqueue.length : Int) ≤
          pool2.m_max_requests := by
  decide

end threadpool

/-! ## Properties of the process pool -/

namespace processpool

theorem cursor_wraps (n c m : Nat) (hc : c < n) (hm0 : 0 < m) (hmn : m ≤ n)
    (h : (c + m) % n = c) : m = n := by
  by_cases hlt : c + m < n
  · rw [Nat.mod_eq_of_lt hlt] at h
    omega
  · have h2 : (c + m) % n = c + m - n := by
      rw [Nat.mod_eq_sub_mod (by omega), Nat.mod_eq_of_lt (by omega)]
    omega

theorem cyclic_reaches (n c i : Nat) (hc : c < n) (hi : i < n) :
    ∃ j, j < n ∧ (c + j) % n = i := by
  refine ⟨(i + n - c) % n, Nat.mod_lt _ (by omega), ?_⟩
  rw [Nat.add_mod_mod]
  have h1 : c + (i + n - c) = i + n := by omega
  rw [h1, Nat.add_mod_right, Nat.mod_eq_of_lt hi]

theorem scan_from (p : processpool) (c : Nat) (hc : c < p.m_process_number) :
    ∀ fuel k, k < p.m_process_number → p.m_process_number ≤ k + fuel →
      (∀ j, j < k → (sub_process p ((c + j) % p.m_process_number)).m_pid = -1) →
      (∃ k1, k1 < p.m_process_number ∧
          scan p c fuel ((c + k) % p.m_process_number) =
            some ((c + k1) % p.m_process_number) ∧
          (sub_process p ((c + k1) % p.m_process_number)).m_pid ≠ -1 ∧
          ∀ j, j < k1 → (sub_process p ((c + j) % p.m_process_number)).m_pid = -1) ∨
      (scan p c fuel ((c + k) % p.m_process_number) = some c ∧
          ∀ j, j < p.m_process_number →
            (sub_process p ((c + j) % p.m_process_number)).m_pid = -1) := by
  intro fuel
  induction fuel with
  | zero =>
    intro k hk hf _
    omega
  | succ fuel ih =>
    intro k hk hf hdead
    by_cases hl : (sub_process p ((c + k) % p.m_process_number)).m_pid ≠ -1
    · left
      refine ⟨k, hk, ?_, hl, hdead⟩
      rw [scan, if_pos hl]
    · have hd : (sub_process p ((c + k) % p.m_process_number)).m_pid = -1 := by
        simpa using hl
      have hnext : ((c + k) % p.m_process_number + 1) % p.m_process_number =
          (c + (k + 1)) % p.m_process_number := by
        rw [Nat.mod_add_mod, Nat.add_assoc]
      have hdead1 : ∀ j, j < k + 1 →
          (sub_process p ((c + j) % p.m_process_number)).m_pid = -1 := by
        intro j hj
        by_cases hjk : j = k
        · rw [hjk]; exact hd
        · exact hdead j (by omega)
      by_cases hwrap : (c + (k + 1)) % p.m_process_number = c
      · right
        have hkn : k + 1 = p.m_process_number :=
          cursor_wraps p.m_process_number c (k + 1) hc (by omega) (by omega) hwrap
        refine ⟨?_, ?_⟩
        · rw [scan, if_neg (not_not.mpr hd), hnext, if_neg (not_not.mpr hwrap), hwrap]
        · intro j hj
          exact hdead1 j (by omega)
      · have hk1 : k + 1 < p.m_process_number := by
          by_contra hcon
          have hkn : k + 1 = p.m_process_number := by omega
          apply hwrap
          rw [hkn, Nat.add_mod_right, Nat.mod_eq_of_lt hc]
        have h1 := ih (k + 1) hk1 (by omega) hdead1
        have hs : scan p c (fuel + 1) ((c + k) % p.m_process_number) =
            scan p c fuel ((c + (k + 1)) % p.m_process_number) := by
          rw [scan, if_neg (not_not.mpr hd), hnext, if_pos hwrap]
        rw [hs]
        exact h1

theorem scan_cursor (s : frame) (h : parent_ok s) :
    (∃ k1, k1 < s.pool.m_process_number ∧
        scan s.pool s.sub_process_counter s.pool.m_process_number s.sub_process_counter =
          some ((s.sub_process_counter + k1) % s.pool.m_process_number) ∧
        pid_at s ((s.sub_process_counter + k1) % s.pool.m_process_number) ≠ -1 ∧
        ∀ j, j < k1 → pid_at s ((s.sub_process_counter + j) % s.pool.m_process_number) = -1) ∨
    (scan s.pool s.sub_process_counter s.pool.m_process_number s.sub_process_counter =
        some s.sub_process_counter ∧
        ∀ i, i < s.pool.m_process_number → pid_at s i = -1) := by
  obtain ⟨h1, _, _, hc⟩ := h
  have h0 := scan_from s.pool s.sub_process_counter hc s.pool.m_process_number 0 (by omega)
    (by omega) (by intro j hj; omega)
  rw [Nat.add_zero, Nat.mod_eq_of_lt hc] at h0
  rcases h0 with ⟨k1, hk1, hs, hl, hd⟩ | ⟨hs, hd⟩
  · left
    exact ⟨k1, hk1, hs, hl, hd⟩
  · right
    refine ⟨hs, ?_⟩
    intro i hi
    obtain ⟨j, hj, hji⟩ := cyclic_reaches s.pool.m_process_number s.sub_process_counter i hc hi
    have := hd j hj
    rw [hji] at this
    exact this

theorem on_listen_first_live (s : frame) (h : parent_ok s) (k1 : Nat)
    (hl : pid_at s ((s.sub_process_counter + k1) % s.pool.m_process_number) ≠ -1)
    (hd : ∀ j, j < k1 →
      pid_at s ((s.sub_process_counter + j) % s.pool.m_process_number) = -1) :
    on_listen s =
      some (token_sent s ((s.sub_process_counter + k1) % s.pool.m_process_number), false) := by
  have hN : 0 < s.pool.m_process_number := h.1
  rcases scan_cursor s h with ⟨k2, hk2, hs, hl2, hd2⟩ | ⟨_, hall⟩
  · have hk : k2 = k1 := by
      rcases Nat.lt_trichotomy k2 k1 with hlt | heq | hgt
      · exact absurd (hd k2 hlt) hl2
      · exact heq
      · exact absurd (hd2 k1 hgt) hl
    subst hk
    unfold pid_at at hl2
    simp only [on_listen, hs, hl2, if_false, token_sent]
  · exact absurd (hall _ (Nat.mod_lt _ hN)) hl

theorem on_listen_all_dead (s : frame) (h : parent_ok s)
    (hdead : ∀ i, i < s.pool.m_process_number → pid_at s i = -1) :
    on_listen s = some (stop_set s, true) := by
  have hN : 0 < s.pool.m_process_number := h.1
  rcases scan_cursor s h with ⟨k2, hk2, hs, hl2, hd2⟩ | ⟨hs, hall⟩
  · exact absurd (hdead _ (Nat.mod_lt _ hN)) hl2
  · have hc := hall s.sub_process_counter h.2.2.2
    unfold pid_at at hc
    simp only [on_listen, hs, hc, if_true, stop_set]

theorem sent_to_append (l1 l2 : List Call) : sent_to (l1 ++ l2) = sent_to l1 ++ sent_to l2 := by
  induction l1 with
  | nil => rfl
  | cons c rest ih => cases c <;> simp [sent_to, ih]

theorem sent_to_sends (s : frame) (l : List Nat) : sent_to (sends s l) = l := by
  induction l with
  | nil => rfl
  | cons i rest ih =>
    unfold sends at ih ⊢
    simp [sent_to, ih]

theorem run_parent_listen_step (s s1 : frame) (k : Nat) (hstop : s.pool.m_stop = false)
    (h : on_listen s = some (s1, false)) :
    run_parent (listen_run s (k + 1)) s = run_parent (listen_run s k) s1 := by
  have he : parent_event s (listen_event s) = some (s1, false) := by
    simp only [parent_event, listen_event, if_true, h]
  have hw : ¬ ((1 : Int) < 0 ∧ (0 : Int) ≠ EINTR) := by decide
  have ht : (1 : Int).toNat = 1 := rfl
  simp only [listen_run, List.replicate_succ, run_parent, hstop, Bool.false_eq_true, if_false,
    hw, ht, List.take_succ_cons, List.take_zero, parent_events, he]

theorem cyclic_eq_rotate (n c : Nat) : cyclic n c = (List.range n).rotate c := by
  apply List.ext_getElem
  · simp [cyclic]
  · intro j h1 h2
    simp only [cyclic, List.getElem_map, List.getElem_range, List.getElem_rotate,
      List.length_range]
    rw [Nat.add_comm]

theorem cyclic_perm (n c : Nat) : (cyclic n c).Perm (List.range n) := by
  rw [cyclic_eq_rotate n c]
  exact List.rotate_perm _ _

/-- C2: with all workers live the parent, handling a run of `k` listening-readiness
events from cursor `c`, returns to `epoll_wait` having sent the token to the workers
`(c + j) mod N` for `j = 0, ..., k-1` in this order and nothing else, with the cursor at
`(c + k) mod N` and all other state unchanged; for `k = N` the workers selected are
the workers `0, ..., N-1` in cyclic order from `c`, each exactly once. -/
theorem round_robin_with_all_workers_live (k : Nat) (s : frame) (h : parent_ok s)
    (hstop : s.pool.m_stop = false)
    (hlive : ∀ i, i < s.pool.m_process_number → pid_at s i ≠ -1) :
    run_parent (listen_run s k) s =
        some ({ s with
                  sub_process_counter := (s.sub_process_counter + k) % s.pool.m_process_number
                  calls := s.calls ++
                    sends s ((List.range k).map
                      (fun j => (s.sub_process_counter + j) % s.pool.m_process_number)) },
              false) ∧
      ((List.range s.pool.m_process_number).map
          (fun j => (s.sub_process_counter + j) % s.pool.m_process_number)).Perm
        (List.range s.pool.m_process_number) := by
  refine ⟨?_, cyclic_perm _ _⟩
  induction k generalizing s with
  | zero =>
    have hc := h.2.2.2
    simp [listen_run, run_parent, hstop, sends, Nat.mod_eq_of_lt hc]
  | succ k ih =>
    obtain ⟨hN, hN16, hlen, hc⟩ := h
    have h0 : (s.sub_process_counter + 0) % s.pool.m_process_number = s.sub_process_counter := by
      rw [Nat.add_zero, Nat.mod_eq_of_lt hc]
    have hl0 := hlive s.sub_process_counter hc
    have h1 := on_listen_first_live s ⟨hN, hN16, hlen, hc⟩ 0 (by rw [h0]; exact hl0)
      (by intro j hj; omega)
    rw [h0] at h1
    rw [run_parent_listen_step s _ k hstop h1]
    have h2 := ih (token_sent s s.sub_process_counter)
      ⟨hN, hN16, hlen, Nat.mod_lt _ (by omega)⟩ hstop hlive
    have h3 : listen_run (token_sent s s.sub_process_counter) k = listen_run s k := rfl
    rw [h3] at h2
    rw [h2]
    simp only [token_sent, sends, List.range_succ_eq_map, List.map_cons, List.map_map,
      Nat.add_zero, Nat.mod_eq_of_lt hc, List.append_assoc, List.singleton_append,
      Nat.mod_add_mod]
    have e1 : s.sub_process_counter + 1 + k = s.sub_process_counter + (k + 1) := by omega
    have e2 : ((fun i => Call.send i (s.pool.sub_process i).m_pipefd0 s.new_conn) ∘ fun j =>
          (s.sub_process_counter + 1 + j) % s.pool.m_process_number) =
        ((fun i => Call.send i (s.pool.sub_process i).m_pipefd0 s.new_conn) ∘
          (fun j => (s.sub_process_counter + j) % s.pool.m_process_number) ∘ Nat.succ) := by
      funext j
      have e3 : s.sub_process_counter + 1 + j = s.sub_process_counter + (j + 1) := by omega
      simp only [Function.comp, e3]
    rw [e1, e2]

/-- C2, at a concrete input: four live workers, the cursor at 0, five events. -/
theorem round_robin_with_all_workers_live_witness :
    (parent_ok parent4 ∧ parent4.pool.m_stop = false ∧
        ∀ i, i < parent4.pool.m_process_number → pid_at parent4 i ≠ -1) ∧
      (run_parent (listen_run parent4 5) parent4 =
          some ({ parent4 with
                    sub_process_counter :=
                      (parent4.sub_process_counter + 5) % parent4.pool.m_process_number
                    calls := parent4.calls ++
                      sends parent4 ((List.range 5).map
                        (fun j =>
                          (parent4.sub_process_counter + j) % parent4.pool.m_process_number)) },
                false) ∧
        ((List.range parent4.pool.m_process_number).map
            (fun j => (parent4.sub_process_counter + j) % parent4.pool.m_process_number)).Perm
          (List.range parent4.pool.m_process_number)) :=
  ⟨by decide, round_robin_with_all_workers_live 5 parent4 (by decide) rfl (by decide)⟩

theorem parent_event_break (s s1 : frame) (e : epoll_event)
    (h : parent_event s e = some (s1, true)) : s1.pool.m_stop = true := by
  unfold parent_event at h
  by_cases hfd : e.fd = s.pool.m_listenfd
  · rw [if_pos hfd] at h
    unfold on_listen at h
    split at h
    · simp at h
    · split at h
      · simp only [Option.some.injEq, Prod.mk.injEq, and_true] at h
        rw [← h]
      · simp at h
  · rw [if_neg hfd] at h
    split at h
    · split at h <;> simp at h
    · simp at h

theorem parent_events_reach_listen (e : epoll_event) (rest : List epoll_event) (s : frame)
    (hs : parent_event s e = some (stop_set s, true)) (pre : List epoll_event) :
    ∀ s0 : frame, parent_events pre s0 = some s →
      parent_events (pre ++ e :: rest) s0 = some (stop_set s) := by
  induction pre with
  | nil =>
    intro s0 h0
    simp only [parent_events, Option.some.injEq] at h0
    subst h0
    simp only [List.nil_append, parent_events, hs]
  | cons e1 pre1 ih =>
    intro s0 h0
    simp only [List.cons_append, parent_events] at h0 ⊢
    cases h1 : parent_event s0 e1 with
    | none => rw [h1] at h0; simp at h0
    | some r =>
      obtain ⟨s1, b⟩ := r
      rw [h1] at h0
      cases b with
      | true =>
        simp only [Option.some.injEq] at h0
        subst h0
        have h2 := parent_event_break s0 s1 e1 h1
        have h3 : stop_set s1 = s1 := by
          obtain ⟨⟨n, ix, ep, lf, st, tb⟩, sp, c, nc, pf, wr, cl⟩ := s1
          simp only at h2
          subst h2
          rfl
        simp only [h3]
      | false =>
        simp only at h0 ⊢
        exact ih s1 h0

theorem run_parent_stopped (ws : List epoll_wait_ret) (s : frame) (h : s.pool.m_stop = true) :
    run_parent ws s = some ({ s with calls := s.calls ++ [Call.close s.pool.m_epollfd] }, true) := by
  cases ws <;> simp [run_parent, h]

/-- C4: when every worker is dead, handling an entry for the listening socket sends no
token, sets the stop flag and leaves the cursor, the worker table and the calls made so
far unchanged, and it leaves the loop over the batch: the entries after it are not
handled, wherever in the batch it stands. The parent then leaves its loop, whatever
the later batches are, and the only call it still makes is `close( m_epollfd )`. -/
theorem all_workers_dead_stops_parent (s : frame) (e : epoll_event) (h : parent_ok s)
    (hdead : ∀ i, i < s.pool.m_process_number → pid_at s i = -1)
    (hfd : e.fd = s.pool.m_listenfd) :
    parent_event s e = some ({ s with pool := { s.pool with m_stop := true } }, true) ∧
      (∀ pre rest s0, parent_events pre s0 = some s →
        parent_events (pre ++ e :: rest) s0 =
          some { s with pool := { s.pool with m_stop := true } }) ∧
      (∀ ws, run_parent ws { s with pool := { s.pool with m_stop := true } } =
        some ({ s with
                  pool := { s.pool with m_stop := true }
                  calls := s.calls ++ [Call.close s.pool.m_epollfd] }, true)) ∧
      (∀ w ws pre rest s0, s0.pool.m_stop = false →
        w.events.take w.number.toNat = pre ++ e :: rest →
        parent_events pre s0 = some s →
        run_parent (w :: ws) s0 =
          some ({ s with
                    pool := { s.pool with m_stop := true }
                    calls := s.calls ++ [Call.close s.pool.m_epollfd] }, true)) := by
  have h1 : parent_event s e = some (stop_set s, true) := by
    simp only [parent_event, hfd, if_true]
    exact on_listen_all_dead s h hdead
  have h3 : ∀ ws, run_parent ws (stop_set s) =
      some ({ stop_set s with
                calls := (stop_set s).calls ++ [Call.close (stop_set s).pool.m_epollfd] },
            true) := fun ws => run_parent_stopped ws (stop_set s) rfl
  refine ⟨h1, ?_, h3, ?_⟩
  · intro pre rest s0 h0
    exact parent_events_reach_listen e rest s h1 pre s0 h0
  · intro w ws pre rest s0 hstop hev h0
    have hw : ¬ (w.number < 0 ∧ w.errno ≠ EINTR) := by
      rintro ⟨hneg, _⟩
      have hz : w.number.toNat = 0 := by omega
      rw [hz] at hev
      simp at hev
    have h2 := parent_events_reach_listen e rest s h1 pre s0 h0
    rw [run_parent, if_neg (by simp [hstop]), if_neg hw, hev]
    simp only [h2]
    exact h3 ws

/-- C4, at a concrete input: the last three workers are reaped while the first entry
of a batch is handled; the second and third entry are for the listening socket, and
another batch follows. -/
theorem all_workers_dead_stops_parent_witness :
    run_parent (signal_then_listen :: [two_listen_events]) parent4_last_exit =
      some ({ parent_signal parent4_last_exit SIGCHLD with
                calls := (parent_signal parent4_last_exit SIGCHLD).calls ++ [Call.close 3] },
            true) ∧
      sent_to (parent_signal parent4_last_exit SIGCHLD).calls = [] :=
  ⟨(all_workers_dead_stops_parent (parent_signal parent4_last_exit SIGCHLD)
      (listen_event parent4) (by decide) (by decide) rfl).2.2.2
      signal_then_listen [two_listen_events] [signal_event_chld] [listen_event parent4]
      parent4_last_exit rfl rfl (by decide),
    by decide⟩

theorem accepts_append (l1 l2 : List Call) : accepts (l1 ++ l2) = accepts l1 + accepts l2 := by
  induction l1 with
  | nil => simp [accepts]
  | cons c rest ih =>
    cases c <;> simp [accepts, ih]
    omega

/-- C10, as stated, fails: on readiness of its control channel the child of `child1`
calls `accept` (and registers the connection) although `recv` returned -1, with
`errno` equal to `EAGAIN`. -/
theorem accept_follows_read_failed_with_eagain :
    pipe_event_eagain.fd = child1.pipefd ∧ pipe_event_eagain.epollin = true ∧
      pipe_event_eagain.recv_ret < 0 ∧ pipe_event_eagain.recv_errno = EAGAIN ∧
      (child_event child1 pipe_event_eagain).calls =
        child1.calls ++ [Call.accept 5, Call.addfd 3 10, Call.init 10] ∧
      ¬ (accepts (child_event child1 pipe_event_eagain).calls = accepts child1.calls + 1 ↔
          0 < pipe_event_eagain.recv_ret) := by
  decide

/-- C10, amended: on readiness of its control channel the child calls `accept` on the
listening descriptor, exactly once, when `recv` returned a positive count or failed
with `EAGAIN`, and otherwise (an empty read, or a failure with another error code) it
calls nothing and its state is unchanged; the word read into `client` has no
influence on what the child does. -/
theorem accept_iff_read_positive_or_eagain (s : frame) (e : epoll_event)
    (hfd : e.fd = s.pipefd) (hin : e.epollin = true) :
    ((0 < e.recv_ret ∨ (e.recv_ret < 0 ∧ e.recv_errno = EAGAIN)) →
        accepts (child_event s e).calls = accepts s.calls + 1 ∧
          (child_event s e).calls =
            s.calls ++ Call.accept s.pool.m_listenfd ::
              (if e.accept_ret < 0 then []
               else [Call.addfd s.pool.m_epollfd e.accept_ret, Call.init e.accept_ret])) ∧
      (¬ (0 < e.recv_ret ∨ (e.recv_ret < 0 ∧ e.recv_errno = EAGAIN)) → child_event s e = s) ∧
      (∀ token, child_event s { e with client := token } = child_event s e) := by
  have hb : e.fd = s.pipefd ∧ e.epollin = true := ⟨hfd, hin⟩
  refine ⟨?_, ?_, ?_⟩
  · intro hc
    have hn : ¬ ((e.recv_ret < 0 ∧ e.recv_errno ≠ EAGAIN) ∨ e.recv_ret = 0) := by
      rcases hc with h1 | ⟨h1, h2⟩
      · omega
      · rintro (⟨_, h3⟩ | h3)
        · exact h3 h2
        · omega
    simp only [child_event, hb, and_self, if_true, on_pipe, hn, if_false]
    by_cases ha : e.accept_ret < 0
    · simp [ha, accepts_append, accepts]
    · simp [ha, accepts_append, accepts]
  · intro hc
    have hn : (e.recv_ret < 0 ∧ e.recv_errno ≠ EAGAIN) ∨ e.recv_ret = 0 := by
      by_contra hcon
      apply hc
      by_cases h0 : 0 < e.recv_ret
      · exact Or.inl h0
      · right
        have hne : e.recv_ret ≠ 0 := fun h => hcon (Or.inr h)
        refine ⟨by omega, ?_⟩
        by_contra h5
        exact hcon (Or.inl ⟨by omega, h5⟩)
    simp only [child_event, hb, and_self, if_true, on_pipe, hn]
  · intro token
    simp only [child_event, on_pipe]

/-- C10, amended, at a concrete input: the token is read in full. -/
theorem accept_iff_read_positive_or_eagain_witness :
    ((0 < pipe_event_token.recv_ret ∨
          (pipe_event_token.recv_ret < 0 ∧ pipe_event_token.recv_errno = EAGAIN)) →
        accepts (child_event child1 pipe_event_token).calls = accepts child1.calls + 1 ∧
          (child_event child1 pipe_event_token).calls =
            child1.calls ++ Call.accept child1.pool.m_listenfd ::
              (if pipe_event_token.accept_ret < 0 then []
               else [Call.addfd child1.pool.m_epollfd pipe_event_token.accept_ret,
                 Call.init pipe_event_token.accept_ret])) ∧
      (¬ (0 < pipe_event_token.recv_ret ∨
          (pipe_event_token.recv_ret < 0 ∧ pipe_event_token.recv_errno = EAGAIN)) →
        child_event child1 pipe_event_token = child1) ∧
      (∀ token, child_event child1 { pipe_event_token with client := token } =
        child_event child1 pipe_event_token) :=
  accept_iff_read_positive_or_eagain child1 pipe_event_token rfl rfl

theorem closed_append (l1 l2 : List Call) : closed (l1 ++ l2) = closed l1 ++ closed l2 := by
  induction l1 with
  | nil => rfl
  | cons c rest ih => cases c <;> simp [closed, ih]

theorem join_child_spec (pid : Int) (hpid : pid ≠ -1) (s : frame) (i : Nat) :
    ∃ T, join_child pid s i =
        { s with
            pool := { s.pool with m_sub_process := T }
            calls := s.calls ++
              (if pid_at s i = pid then [Call.close_pipe i (sub_process s.pool i).m_pipefd0]
               else []) } ∧
      ∀ j, T.getD j default =
        if j = i ∧ pid_at s i = pid then marked_dead (sub_process s.pool i)
        else sub_process s.pool j := by
  by_cases h : pid_at s i = pid
  · refine ⟨s.pool.m_sub_process.set i { sub_process s.pool i with m_pid := -1 }, ?_, ?_⟩
    · have h1 : (sub_process s.pool i).m_pid = pid := h
      simp only [join_child, h1, h, if_true]
    · intro j
      have hi : i < s.pool.m_sub_process.length := by
        by_contra hcon
        have h2 : s.pool.m_sub_process[i]? = none := List.getElem?_eq_none (by omega)
        have h3 : pid_at s i = -1 := by
          simp only [pid_at, sub_process, List.getD_eq_getElem?_getD, h2, Option.getD_none]
          rfl
        exact hpid (h ▸ h3)
      simp only [List.getD_eq_getElem?_getD, List.getElem?_set, hi, if_true, h, and_true,
        marked_dead, sub_process]
      by_cases hij : i = j
      · subst hij
        simp
      · have hji : ¬ j = i := fun e => hij e.symm
        simp [hij, hji]
  · refine ⟨s.pool.m_sub_process, ?_, ?_⟩
    · have h1 : ¬ (sub_process s.pool i).m_pid = pid := h
      simp only [join_child, h1, h, if_false, List.append_nil]
    · intro j
      simp only [h, and_false, if_false, sub_process]

theorem join_loop (pid : Int) (hpid : pid ≠ -1) (l : List Nat) :
    ∀ s : frame, l.Nodup →
      ∃ T, l.foldl (join_child pid) s =
          { s with
              pool := { s.pool with m_sub_process := T }
              calls := s.calls ++
                (l.filter (fun j => decide (pid_at s j = pid))).map
                  (fun j => Call.close_pipe j (sub_process s.pool j).m_pipefd0) } ∧
        ∀ j, T.getD j default =
          if j ∈ l ∧ pid_at s j = pid then marked_dead (sub_process s.pool j)
          else sub_process s.pool j := by
  induction l with
  | nil =>
    intro s _
    exact ⟨s.pool.m_sub_process, by simp, by intro j; simp [sub_process]⟩
  | cons i rest ih =>
    intro s hnd
    obtain ⟨hi, hrest⟩ := List.nodup_cons.mp hnd
    obtain ⟨T1, h1, hT1⟩ := join_child_spec pid hpid s i
    obtain ⟨T, h2, hT⟩ := ih (join_child pid s i) hrest
    refine ⟨T, ?_, ?_⟩
    · rw [List.foldl_cons, h2, h1]
      have hsame : ∀ j, j ∈ rest →
          pid_at { s with
              pool := { s.pool with m_sub_process := T1 }
              calls := s.calls ++
                (if pid_at s i = pid then [Call.close_pipe i (sub_process s.pool i).m_pipefd0]
                 else []) } j = pid_at s j ∧
          sub_process { s.pool with m_sub_process := T1 } j = sub_process s.pool j := by
        intro j hj
        have hji : ¬ j = i := fun e => hi (e ▸ hj)
        have := hT1 j
        simp only [hji, false_and, if_false] at this
        exact ⟨by simp only [pid_at, sub_process]; rw [this]; rfl, this⟩
      have hf : List.filter (fun j => decide (pid_at { s with
              pool := { s.pool with m_sub_process := T1 }
              calls := s.calls ++
                (if pid_at s i = pid then [Call.close_pipe i (sub_process s.pool i).m_pipefd0]
                 else []) } j = pid)) rest =
          List.filter (fun j => decide (pid_at s j = pid)) rest := by
        apply List.filter_congr
        intro j hj
        rw [(hsame j hj).1]
      simp only [hf]
      have hm : List.map (fun j => Call.close_pipe j
              (sub_process { s.pool with m_sub_process := T1 } j).m_pipefd0)
            (List.filter (fun j => decide (pid_at s j = pid)) rest) =
          List.map (fun j => Call.close_pipe j (sub_process s.pool j).m_pipefd0)
            (List.filter (fun j => decide (pid_at s j = pid)) rest) := by
        apply List.map_congr_left
        intro j hj
        rw [(hsame j (List.mem_of_mem_filter hj)).2]
      simp only [hm]
      by_cases hp : pid_at s i = pid
      · simp [hp, List.filter_cons]
      · simp [hp, List.filter_cons]
    · intro j
      rw [hT j]
      have e1 : pid_at (join_child pid s i) j = (T1.getD j default).m_pid := by
        rw [h1]; rfl
      have e2 : sub_process (join_child pid s i).pool j = T1.getD j default := by
        rw [h1]; rfl
      rw [e1, e2, hT1 j]
      by_cases hji : j = i
      · subst hji
        by_cases hp : pid_at s j = pid
        · simp [hp, hi, marked_dead, hpid.symm]
        · simp [hp, hi]
      · by_cases hp : pid_at s j = pid
        · have hp1 : (sub_process s.pool j).m_pid = pid := hp
          simp [hji, hp, hp1]
        · have hp1 : ¬ (sub_process s.pool j).m_pid = pid := hp
          simp [hji, hp, hp1]

theorem closed_close_pipes (f : Nat → Int) (l : List Nat) :
    closed (l.map (fun j => Call.close_pipe j (f j))) = l := by
  induction l with
  | nil => rfl
  | cons i rest ih => simp [closed, ih]

theorem sent_to_close_pipes (f : Nat → Int) (l : List Nat) :
    sent_to (l.map (fun j => Call.close_pipe j (f j))) = [] := by
  induction l with
  | nil => rfl
  | cons i rest ih => simp [sent_to, ih]

theorem reaped_pos (rets : List Int) (pid : Int) (h : pid ∈ reaped rets) : pid > 0 := by
  have := List.mem_takeWhile_imp h
  simpa using this

theorem reap_spec (rets : List Int) :
    ∀ s : frame, ∃ T new, reap rets s =
        { s with
            pool := { s.pool with m_sub_process := T }
            calls := s.calls ++ new
            waitpid_rets := (rets.dropWhile (fun pid => decide (pid > 0))).drop 1 } ∧
      (∀ j, j < s.pool.m_process_number → T.getD j default =
        if pid_at s j ∈ reaped rets then marked_dead (sub_process s.pool j)
        else sub_process s.pool j) ∧
      (∀ j, j < s.pool.m_process_number → (closed new).count j =
        if pid_at s j ∈ reaped rets then 1 else 0) ∧
      sent_to new = [] := by
  induction rets with
  | nil =>
    intro s
    refine ⟨s.pool.m_sub_process, [], by simp [reap], ?_, ?_, rfl⟩
    · intro j _
      simp [reaped, sub_process]
    · intro j _
      simp [reaped, closed]
  | cons pid rest ih =>
    intro s
    by_cases hpos : pid > 0
    · have hpid : pid ≠ -1 := by omega
      obtain ⟨T1, h1, hT1⟩ := join_loop pid hpid (List.range s.pool.m_process_number) s
        (List.nodup_range _)
      obtain ⟨T, new, h2, hT, hcount, hsent⟩ :=
        ih ((List.range s.pool.m_process_number).foldl (join_child pid) s)
      have hr : reaped (pid :: rest) = pid :: reaped rest := by
        simp [reaped, List.takeWhile_cons, hpos]
      have hdead : (-1 : Int) ∉ reaped rest := by
        intro hmem
        have := reaped_pos rest (-1) hmem
        omega
      have hN : ((List.range s.pool.m_process_number).foldl (join_child pid) s).pool.m_process_number
          = s.pool.m_process_number := by rw [h1]
      have e1 : ∀ j, pid_at ((List.range s.pool.m_process_number).foldl (join_child pid) s) j =
          (T1.getD j default).m_pid := by
        intro j; rw [h1]; rfl
      have e2 : ∀ j, sub_process
          ((List.range s.pool.m_process_number).foldl (join_child pid) s).pool j =
            T1.getD j default := by
        intro j; rw [h1]; rfl
      refine ⟨T, (List.filter (fun j => decide (pid_at s j = pid))
          (List.range s.pool.m_process_number)).map
            (fun j => Call.close_pipe j (sub_process s.pool j).m_pipefd0) ++ new, ?_, ?_, ?_, ?_⟩
      · simp only [reap, hpos, if_true, h2]
        rw [h1]
        simp [List.dropWhile_cons, hpos]
      · intro j hj
        rw [hT j (by rw [hN]; exact hj), e1, e2, hT1 j, hr]
        by_cases hp : pid_at s j = pid
        · simp [hp, hj, marked_dead, hdead]
        · have hp1 : ¬ (sub_process s.pool j).m_pid = pid := hp
          have hp2 : ¬ pid_at s j = pid := hp
          simp only [hp, and_false, if_false, List.mem_cons, hp2, false_or]
          rfl
      · intro j hj
        rw [closed_append, List.count_append, closed_close_pipes,
          hcount j (by rw [hN]; exact hj), e1, hT1 j, hr,
          List.count_eq_of_nodup ((List.nodup_range _).filter _)]
        by_cases hp : pid_at s j = pid
        · simp [hp, hj, marked_dead, hdead]
        · have hp2 : ¬ pid_at s j = pid := hp
          simp only [List.mem_filter, List.mem_range, hj, hp, decide_False, and_false,
            if_false, Nat.zero_add, List.mem_cons, hp2, false_or, Bool.false_eq_true]
          rfl
      · rw [sent_to_append, sent_to_close_pipes, hsent]
        rfl
    · refine ⟨s.pool.m_sub_process, [], ?_, ?_, ?_, rfl⟩
      · simp [reap, hpos, List.dropWhile_cons]
      · intro j _
        simp [reaped, List.takeWhile_cons, hpos, sub_process]
      · intro j _
        simp [reaped, List.takeWhile_cons, hpos, closed]

theorem keep_running_loop (l : List Nat) :
    ∀ s : frame, l.foldl keep_running s =
      { s with
          pool := { s.pool with
            m_stop := s.pool.m_stop && l.all (fun i => decide (pid_at s i = -1)) } } := by
  induction l with
  | nil =>
    intro s
    simp
  | cons i rest ih =>
    intro s
    rw [List.foldl_cons, ih]
    by_cases h : pid_at s i = -1
    · have h1 : (sub_process s.pool i).m_pid = -1 := h
      simp [keep_running, h1, h]
    · have h1 : ¬ (sub_process s.pool i).m_pid = -1 := h
      simp only [keep_running, ne_eq, h1, not_false_eq_true, if_true, Bool.false_and,
        List.all_cons, h, decide_False, Bool.and_false]

theorem kill_loop (l : List Nat) :
    ∀ s : frame, l.foldl kill_child s = { s with calls := s.calls ++ kills s l } := by
  induction l with
  | nil =>
    intro s
    simp [kills]
  | cons i rest ih =>
    intro s
    rw [List.foldl_cons, ih]
    by_cases h : pid_at s i = -1
    · have h1 : (sub_process s.pool i).m_pid = -1 := h
      simp [kill_child, h1, kills, List.filter_cons, live, h]
    · have h1 : ¬ (sub_process s.pool i).m_pid = -1 := h
      simp only [kill_child, ne_eq, h1, not_false_eq_true, if_true, kills, List.filter_cons,
        live, h, decide_True, List.map_cons, List.append_assoc, List.singleton_append]
      rfl

theorem parent_signal_chld (s : frame) :
    ∃ T new, parent_signal s SIGCHLD =
        { s with
            pool := { s.pool with
              m_sub_process := T
              m_stop := (List.range s.pool.m_process_number).all
                (fun i => decide ((T.getD i default).m_pid = -1)) }
            calls := s.calls ++ new
            waitpid_rets := (s.waitpid_rets.dropWhile (fun pid => decide (pid > 0))).drop 1 } ∧
      (∀ j, j < s.pool.m_process_number → T.getD j default =
        if pid_at s j ∈ reaped s.waitpid_rets then marked_dead (sub_process s.pool j)
        else sub_process s.pool j) ∧
      (∀ j, j < s.pool.m_process_number → (closed new).count j =
        if pid_at s j ∈ reaped s.waitpid_rets then 1 else 0) ∧
      sent_to new = [] := by
  obtain ⟨T, new, h1, hT, hcount, hsent⟩ := reap_spec s.waitpid_rets s
  refine ⟨T, new, ?_, hT, hcount, hsent⟩
  simp only [parent_signal, if_true, h1, keep_running_loop, Bool.true_and]
  rfl

/-- C8: when the parent handles a `SIGCHLD` byte, with `reaped` the pids `waitpid`
returns before its first non-positive value: the pool changes only in the worker
table and the stop flag, and the frame otherwise only in the calls made and the values
of `waitpid` consumed; a worker whose pid was reaped gets the dead sentinel as pid and
its channel end is closed exactly once, every other worker keeps its entry and gets no
`close`; no token is sent; afterwards the stop flag is true exactly when no worker is
live; and when every dead worker had its channel end closed before, this still holds
afterwards. -/
theorem reaping_closes_and_marks_the_reaped_workers (s : frame) :
    parent_signal s SIGCHLD =
        { s with
            pool := { s.pool with
              m_sub_process := (parent_signal s SIGCHLD).pool.m_sub_process
              m_stop := (parent_signal s SIGCHLD).pool.m_stop }
            calls := (parent_signal s SIGCHLD).calls
            waitpid_rets := (parent_signal s SIGCHLD).waitpid_rets } ∧
      (∀ i, i < s.pool.m_process_number →
        sub_process (parent_signal s SIGCHLD).pool i =
          if pid_at s i ∈ reaped s.waitpid_rets then marked_dead (sub_process s.pool i)
          else sub_process s.pool i) ∧
      (∀ i, i < s.pool.m_process_number →
        (closed (parent_signal s SIGCHLD).calls).count i =
          (closed s.calls).count i + if pid_at s i ∈ reaped s.waitpid_rets then 1 else 0) ∧
      sent_to (parent_signal s SIGCHLD).calls = sent_to s.calls ∧
      ((parent_signal s SIGCHLD).pool.m_stop = true ↔
        ∀ i, i < s.pool.m_process_number → pid_at (parent_signal s SIGCHLD) i = -1) ∧
      ((∀ i, i < s.pool.m_process_number → pid_at s i = -1 → i ∈ closed s.calls) →
        ∀ i, i < s.pool.m_process_number → pid_at (parent_signal s SIGCHLD) i = -1 →
          i ∈ closed (parent_signal s SIGCHLD).calls) := by
  obtain ⟨T, new, h1, hT, hcount, hsent⟩ := parent_signal_chld s
  rw [h1]
  refine ⟨rfl, hT, ?_, ?_, ?_, ?_⟩
  · intro i hi
    show (closed (s.calls ++ new)).count i = _
    rw [closed_append, List.count_append, hcount i hi]
  · show sent_to (s.calls ++ new) = _
    rw [sent_to_append, hsent, List.append_nil]
  · show ((List.range s.pool.m_process_number).all
        (fun i => decide ((T.getD i default).m_pid = -1)) = true) ↔
      ∀ i, i < s.pool.m_process_number → (T.getD i default).m_pid = -1
    simp [List.all_eq_true]
  · intro hinv i hi hdead
    show i ∈ closed (s.calls ++ new)
    have hdead1 : (T.getD i default).m_pid = -1 := hdead
    rw [closed_append, List.mem_append]
    by_cases hr : pid_at s i ∈ reaped s.waitpid_rets
    · right
      have hc := hcount i hi
      rw [if_pos hr] at hc
      exact List.one_le_count_iff.mp (by omega)
    · left
      rw [hT i hi, if_neg hr] at hdead1
      exact hinv i hi hdead1

theorem parent_signal_term (s : frame) (sig : Int) (h : sig = SIGTERM ∨ sig = SIGINT) :
    parent_signal s sig =
      { s with calls := s.calls ++ kills s (List.range s.pool.m_process_number) } := by
  have hne : ¬ sig = SIGCHLD := by
    rcases h with h | h <;> rw [h] <;> decide
  simp only [parent_signal, hne, if_false, h, if_true, kill_loop]

theorem parent_signal_stop (s : frame) (sig : Int)
    (hQ : s.pool.m_stop = true → ∀ i, i < s.pool.m_process_number → pid_at s i = -1) :
    (parent_signal s sig).pool.m_process_number = s.pool.m_process_number ∧
      ((parent_signal s sig).pool.m_stop = true →
        ∀ i, i < s.pool.m_process_number → pid_at (parent_signal s sig) i = -1) := by
  by_cases h1 : sig = SIGCHLD
  · subst h1
    obtain ⟨T, new, h2, _, _, _⟩ := parent_signal_chld s
    rw [h2]
    refine ⟨rfl, ?_⟩
    intro hstop i hi
    have hall : (List.range s.pool.m_process_number).all
        (fun i => decide ((T.getD i default).m_pid = -1)) = true := hstop
    rw [List.all_eq_true] at hall
    have h3 := hall i (List.mem_range.mpr hi)
    exact of_decide_eq_true h3
  · by_cases h2 : sig = SIGTERM ∨ sig = SIGINT
    · rw [parent_signal_term s sig h2]
      exact ⟨rfl, hQ⟩
    · have h3 : parent_signal s sig = s := by
        simp only [parent_signal, h1, h2, if_false]
      rw [h3]
      exact ⟨rfl, hQ⟩

theorem parent_signals_stop (sigs : List Int) :
    ∀ s : frame,
      (s.pool.m_stop = true → ∀ i, i < s.pool.m_process_number → pid_at s i = -1) →
      (sigs.foldl parent_signal s).pool.m_process_number = s.pool.m_process_number ∧
        ((sigs.foldl parent_signal s).pool.m_stop = true →
          ∀ i, i < s.pool.m_process_number → pid_at (sigs.foldl parent_signal s) i = -1) := by
  induction sigs with
  | nil =>
    intro s hQ
    exact ⟨rfl, hQ⟩
  | cons sig rest ih =>
    intro s hQ
    obtain ⟨hN, h1⟩ := parent_signal_stop s sig hQ
    have h2 := ih (parent_signal s sig) (by rw [hN]; exact h1)
    rw [hN] at h2
    exact h2

theorem parent_event_stop (s s1 : frame) (e : epoll_event) (b : Bool) (h : parent_ok s)
    (hstop : s.pool.m_stop = false) (he : parent_event s e = some (s1, b))
    (h1 : s1.pool.m_stop = true) :
    s1.pool.m_process_number = s.pool.m_process_number ∧
      ∀ i, i < s.pool.m_process_number → pid_at s1 i = -1 := by
  unfold parent_event at he
  by_cases hfd : e.fd = s.pool.m_listenfd
  · rw [if_pos hfd] at he
    rcases scan_cursor s h with ⟨k1, _, _, hl, hd⟩ | ⟨_, hall⟩
    · rw [on_listen_first_live s h k1 hl hd] at he
      simp only [Option.some.injEq, Prod.mk.injEq] at he
      rw [← he.1] at h1
      simp only [token_sent] at h1
      rw [hstop] at h1
      simp at h1
    · rw [on_listen_all_dead s h hall] at he
      simp only [Option.some.injEq, Prod.mk.injEq] at he
      rw [← he.1]
      exact ⟨rfl, hall⟩
  · rw [if_neg hfd] at he
    by_cases hsig : e.fd = s.sig_pipefd0 ∧ e.epollin = true
    · rw [if_pos hsig] at he
      by_cases hret : e.recv_ret ≤ 0
      · rw [if_pos hret] at he
        simp only [Option.some.injEq, Prod.mk.injEq] at he
        rw [← he.1, hstop] at h1
        simp at h1
      · rw [if_neg hret] at he
        simp only [Option.some.injEq, Prod.mk.injEq] at he
        rw [← he.1] at h1 ⊢
        have h2 := parent_signals_stop (e.signals.take e.recv_ret.toNat) s
          (by intro h3; rw [hstop] at h3; simp at h3)
        exact ⟨h2.1, h2.2 h1⟩
    · rw [if_neg hsig] at he
      simp only [Option.some.injEq, Prod.mk.injEq] at he
      rw [← he.1, hstop] at h1
      simp at h1

/-- C9: when the parent handles a `SIGTERM` or `SIGINT` byte it calls `kill` with
`SIGTERM` once for every worker whose pid is not the dead sentinel, in index order, with
that pid, and makes no other call; the stop flag, the cursor, the worker table and the
rest of the state are unchanged. Whatever event the running parent handles, its stop
flag is true afterwards only when no worker is live. -/
theorem terminate_request_is_forwarded_to_live_workers (s : frame) :
    parent_signal s SIGTERM =
        { s with calls := s.calls ++ kills s (List.range s.pool.m_process_number) } ∧
      parent_signal s SIGINT =
        { s with calls := s.calls ++ kills s (List.range s.pool.m_process_number) } ∧
      kills s (List.range s.pool.m_process_number) =
        ((List.range s.pool.m_process_number).filter (fun i => decide (pid_at s i ≠ -1))).map
          (fun i => Call.kill (pid_at s i) SIGTERM) ∧
      (∀ pid sig, Call.kill pid sig ∈ kills s (List.range s.pool.m_process_number) ↔
        sig = SIGTERM ∧ pid ≠ -1 ∧ ∃ i, i < s.pool.m_process_number ∧ pid_at s i = pid) ∧
      (∀ e s1 b, parent_ok s → s.pool.m_stop = false → parent_event s e = some (s1, b) →
        s1.pool.m_stop = true → ∀ i, i < s.pool.m_process_number → pid_at s1 i = -1) := by
  refine ⟨parent_signal_term s SIGTERM (Or.inl rfl), parent_signal_term s SIGINT (Or.inr rfl),
    rfl, ?_, ?_⟩
  · intro pid sig
    simp only [kills, List.mem_map, List.mem_filter, List.mem_range, live, decide_eq_true_eq,
      Call.kill.injEq]
    constructor
    · rintro ⟨i, ⟨hi, hl⟩, hp, hs⟩
      exact ⟨hs.symm, hp ▸ hl, i, hi, hp⟩
    · rintro ⟨hs, hl, i, hi, hp⟩
      exact ⟨i, ⟨hi, hp ▸ hl⟩, hp, hs.symm⟩
  · intro e s1 b hok hstop he h1
    exact (parent_event_stop s s1 e b hok hstop he h1).2

/-- C9, at a concrete input: four workers of which one is dead; the event carries a
`SIGTERM` byte and a `SIGCHLD` byte, and the three live workers are reaped. -/
theorem terminate_request_is_forwarded_to_live_workers_witness :
    (parent_signal parent4_last_exit SIGTERM).calls =
        [Call.close_pipe 1 8, Call.kill 101 15, Call.kill 103 15, Call.kill 104 15] ∧
      (parent_signal parent4_last_exit SIGTERM).pool = parent4_last_exit.pool ∧
      ∀ i, i < parent4_last_exit.pool.m_process_number →
        pid_at ((signal_event_term_chld.signals.take 2).foldl parent_signal parent4_last_exit)
          i = -1 :=
  ⟨by
      rw [(terminate_request_is_forwarded_to_live_workers parent4_last_exit).1]
      decide,
    by
      rw [(terminate_request_is_forwarded_to_live_workers parent4_last_exit).1],
    (terminate_request_is_forwarded_to_live_workers parent4_last_exit).2.2.2.2
      signal_event_term_chld
      ((signal_event_term_chld.signals.take 2).foldl parent_signal parent4_last_exit) false
      (by decide) rfl (by decide) (by decide)⟩

theorem filter_split (L : List Nat) (p : Nat → Bool) (k : Nat) (hk : k < L.length)
    (hp : p L[k] = true) (hd : ∀ j (hj : j < k), p (L[j]) = false) :
    L.filter p = L[k] :: (L.drop (k + 1)).filter p ∧
      (L.rotate (k + 1)).filter p = (L.drop (k + 1)).filter p ++ [L[k]] := by
  have h1 : (L.take k).filter p = [] := by
    rw [List.filter_eq_nil_iff]
    intro a ha
    obtain ⟨i, hi, hia⟩ := List.mem_take_iff_getElem.mp ha
    have hik : i < k := lt_of_lt_of_le hi (min_le_left _ _)
    rw [← hia, hd i hik]
    simp
  have h2 : L = L.take k ++ L[k] :: L.drop (k + 1) := by
    rw [← List.drop_eq_getElem_cons hk, List.take_append_drop]
  constructor
  · conv_lhs => rw [h2]
    rw [List.filter_append, h1, List.nil_append, List.filter_cons, if_pos hp]
  · rw [List.rotate_eq_drop_append_take (by omega), List.filter_append, List.take_succ,
      List.filter_append, h1, List.nil_append]
    simp [List.getElem?_eq_getElem hk, hp]

theorem rot_getD (i : Nat) (rest : List Nat) (j d : Nat) :
    (rest ++ [i]).getD (j % (rest.length + 1)) d =
      (i :: rest).getD ((j + 1) % (rest.length + 1)) d := by
  have hm : j % (rest.length + 1) < rest.length + 1 := Nat.mod_lt _ (by omega)
  have h1 : (j + 1) % (rest.length + 1) = (j % (rest.length + 1) + 1) % (rest.length + 1) := by
    rw [Nat.mod_add_mod]
  rw [h1]
  generalize j % (rest.length + 1) = m at hm
  by_cases h2 : m + 1 < rest.length + 1
  · rw [Nat.mod_eq_of_lt h2, List.getD_cons_succ, List.getD_append _ _ _ _ (by omega)]
  · have h3 : m = rest.length := by omega
    subst h3
    rw [Nat.mod_self, List.getD_cons_zero, List.getD_append_right _ _ _ _ (le_refl _)]
    simp

theorem cyclic_shift (n c m : Nat) : cyclic n ((c + m) % n) = (cyclic n c).rotate m := by
  have h := List.rotate_mod (List.range n) (c + m)
  rw [List.length_range] at h
  rw [cyclic_eq_rotate, cyclic_eq_rotate, List.rotate_rotate, h]

theorem live_cyclic_step (s : frame) (k1 : Nat)
    (hk1 : k1 < s.pool.m_process_number)
    (hl : pid_at s ((s.sub_process_counter + k1) % s.pool.m_process_number) ≠ -1)
    (hd : ∀ j, j < k1 →
      pid_at s ((s.sub_process_counter + j) % s.pool.m_process_number) = -1) :
    ∃ rest,
      live_cyclic s = (s.sub_process_counter + k1) % s.pool.m_process_number :: rest ∧
      live_cyclic (token_sent s ((s.sub_process_counter + k1) % s.pool.m_process_number)) =
        rest ++ [(s.sub_process_counter + k1) % s.pool.m_process_number] := by
  have hlen : (cyclic s.pool.m_process_number s.sub_process_counter).length =
      s.pool.m_process_number := by simp [cyclic]
  have hget : ∀ j (hj : j < (cyclic s.pool.m_process_number s.sub_process_counter).length),
      (cyclic s.pool.m_process_number s.sub_process_counter)[j] =
        (s.sub_process_counter + j) % s.pool.m_process_number := by
    intro j hj
    simp [cyclic]
  have hk : k1 < (cyclic s.pool.m_process_number s.sub_process_counter).length := by
    rw [hlen]; exact hk1
  obtain ⟨f1, f2⟩ := filter_split (cyclic s.pool.m_process_number s.sub_process_counter)
    (live s) k1 hk (by rw [hget k1 hk]; simp [live, hl])
    (by
      intro j hj
      rw [hget j (by omega)]
      simp [live, hd j hj])
  rw [hget k1 hk] at f1 f2
  refine ⟨_, f1, ?_⟩
  have e1 : live_cyclic (token_sent s ((s.sub_process_counter + k1) % s.pool.m_process_number)) =
      (cyclic s.pool.m_process_number
        (((s.sub_process_counter + k1) % s.pool.m_process_number + 1) %
          s.pool.m_process_number)).filter (live s) := rfl
  rw [e1, Nat.mod_add_mod, Nat.add_assoc, cyclic_shift, f2]

theorem live_cyclic_mem (s : frame) (i : Nat) :
    i ∈ live_cyclic s ↔ i < s.pool.m_process_number ∧ pid_at s i ≠ -1 := by
  simp only [live_cyclic, List.mem_filter, (cyclic_perm _ _).mem_iff, List.mem_range, live,
    decide_eq_true_eq]

theorem in_turn_shift (i : Nat) (rest : List Nat) (j : Nat) :
    in_turn (rest ++ [i]) j = in_turn (i :: rest) (j + 1) := by
  have h := rot_getD i rest j 0
  simpa [in_turn] using h

theorem dispatch_run (k : Nat) :
    ∀ s : frame, parent_ok s → s.pool.m_stop = false → live_cyclic s ≠ [] →
      run_parent (listen_run s k) s =
        some ({ s with
                  sub_process_counter := cursor_after s (live_cyclic s) k
                  calls := s.calls ++ sends s ((List.range k).map (in_turn (live_cyclic s))) },
              false) := by
  induction k with
  | zero =>
    intro s _ hstop _
    simp [listen_run, run_parent, hstop, sends, cursor_after]
  | succ k ih =>
    intro s h hstop hne
    obtain ⟨hN, hN16, hlen, hc⟩ := h
    have h := (⟨hN, hN16, hlen, hc⟩ : parent_ok s)
    rcases scan_cursor s h with ⟨k1, hk1, _, hl, hd⟩ | ⟨_, hall⟩
    · obtain ⟨rest, hL, hL1⟩ := live_cyclic_step s k1 hk1 hl hd
      have h1 := on_listen_first_live s h k1 hl hd
      generalize (s.sub_process_counter + k1) % s.pool.m_process_number = i at hL hL1 h1
      rw [run_parent_listen_step s _ k hstop h1]
      have h2 := ih (token_sent s i) ⟨hN, hN16, hlen, Nat.mod_lt _ (by omega)⟩ hstop
        (by rw [hL1]; simp)
      have h3 : listen_run (token_sent s i) k = listen_run s k := rfl
      rw [h3] at h2
      rw [h2, hL1, hL]
      have e1 : cursor_after (token_sent s i) (rest ++ [i]) k =
          cursor_after s (i :: rest) (k + 1) := by
        cases k with
        | zero => simp [cursor_after, token_sent, in_turn]
        | succ j =>
          simp only [cursor_after, in_turn_shift]
          rfl
      have e2 : (List.range (k + 1)).map (in_turn (i :: rest)) =
          i :: (List.range k).map (in_turn (rest ++ [i])) := by
        have e3 : in_turn (i :: rest) 0 = i := by simp [in_turn]
        rw [List.range_succ_eq_map, List.map_cons, List.map_map, e3]
        congr 1
        apply List.map_congr_left
        intro j _
        simp only [Function.comp, Nat.succ_eq_add_one, in_turn_shift]
      rw [e1, e2]
      simp [token_sent, sends]
    · exfalso
      obtain ⟨i, hi⟩ := List.exists_mem_of_ne_nil _ hne
      have := (live_cyclic_mem s i).mp hi
      exact this.2 (hall i this.1)

theorem in_turn_mem (l : List Nat) (hne : l ≠ []) (j : Nat) : in_turn l j ∈ l := by
  have hpos : 0 < l.length := List.length_pos.mpr hne
  have hm : j % l.length < l.length := Nat.mod_lt _ hpos
  unfold in_turn
  rw [List.getD_eq_getElem l 0 hm]
  exact List.getElem_mem hm

theorem in_turn_first_round (l : List Nat) : (List.range l.length).map (in_turn l) = l := by
  apply List.ext_getElem
  · simp
  · intro j h1 h2
    simp only [List.getElem_map, List.getElem_range, in_turn]
    rw [Nat.mod_eq_of_lt h2, List.getD_eq_getElem l 0 h2]

/-- C3: in a running parent with a cursor inside the table and at least one live
worker, a listening-readiness event sends the token to the first live worker at or
cyclically after the cursor and moves the cursor past it. A run of `k` such events
sends the token to the live workers taken in turn in cyclic index order from the
cursor, and to no one else: every worker selected is live, the first `M` dispatches,
`M` being the number of live workers, select each live worker exactly once, and the
selection then repeats. -/
theorem dispatch_selects_live_workers_in_turn (k : Nat) (s : frame) (h : parent_ok s)
    (hstop : s.pool.m_stop = false)
    (hlive : ∃ i, i < s.pool.m_process_number ∧ pid_at s i ≠ -1) :
    (∃ k1, k1 < s.pool.m_process_number ∧
        on_listen s =
          some (token_sent s ((s.sub_process_counter + k1) % s.pool.m_process_number), false) ∧
        pid_at s ((s.sub_process_counter + k1) % s.pool.m_process_number) ≠ -1 ∧
        ∀ j, j < k1 →
          pid_at s ((s.sub_process_counter + j) % s.pool.m_process_number) = -1) ∧
      run_parent (listen_run s k) s =
        some ({ s with
                  sub_process_counter := cursor_after s (live_cyclic s) k
                  calls := s.calls ++ sends s ((List.range k).map (in_turn (live_cyclic s))) },
              false) ∧
      (∀ j, in_turn (live_cyclic s) j < s.pool.m_process_number ∧
        pid_at s (in_turn (live_cyclic s) j) ≠ -1) ∧
      (List.range (live_cyclic s).length).map (in_turn (live_cyclic s)) = live_cyclic s ∧
      (live_cyclic s).Nodup ∧
      (∀ i, i ∈ live_cyclic s ↔ i < s.pool.m_process_number ∧ pid_at s i ≠ -1) := by
  obtain ⟨i0, hi0, hl0⟩ := hlive
  have hne : live_cyclic s ≠ [] :=
    List.ne_nil_of_mem ((live_cyclic_mem s i0).mpr ⟨hi0, hl0⟩)
  refine ⟨?_, dispatch_run k s h hstop hne, ?_, in_turn_first_round _, ?_, live_cyclic_mem s⟩
  · rcases scan_cursor s h with ⟨k1, hk1, _, hl, hd⟩ | ⟨_, hall⟩
    · exact ⟨k1, hk1, on_listen_first_live s h k1 hl hd, hl, hd⟩
    · exact absurd (hall i0 hi0) hl0
  · intro j
    exact (live_cyclic_mem s _).mp (in_turn_mem _ hne j)
  · unfold live_cyclic
    exact ((cyclic_perm _ _).nodup_iff.mpr (List.nodup_range _)).filter _

/-- C3, at a concrete input: four workers of which worker 1 is dead, the cursor at 1,
four events. -/
theorem dispatch_selects_live_workers_in_turn_witness :
    (run_parent (listen_run parent4_one_dead 4) parent4_one_dead).map
        (fun r => (sent_to r.1.calls, r.1.sub_process_counter, r.2)) =
      some ([2, 3, 0, 2], 3, false) := by
  rw [(dispatch_selects_live_workers_in_turn 4 parent4_one_dead (by decide) rfl
    ⟨0, by decide, by decide⟩).2.1]
  decide

/-- C8, at a concrete input: four workers of which worker 1 is dead already; `waitpid`
returns the pids of workers 3 and 0 and then 0. -/
theorem reaping_closes_and_marks_the_reaped_workers_witness :
    (parent_signal parent4_one_dead SIGCHLD).pool.m_sub_process =
        [{ m_pid := -1, m_pipefd0 := 6 }, { m_pid := -1, m_pipefd0 := 8 },
         { m_pid := 103, m_pipefd0 := 10 }, { m_pid := -1, m_pipefd0 := 12 }] ∧
      (parent_signal parent4_one_dead SIGCHLD).calls =
        [Call.close_pipe 1 8, Call.close_pipe 3 12, Call.close_pipe 0 6] ∧
      (parent_signal parent4_one_dead SIGCHLD).pool.m_stop = false ∧
      (∀ i, i < parent4_one_dead.pool.m_process_number →
        pid_at (parent_signal parent4_one_dead SIGCHLD) i = -1 →
          i ∈ closed (parent_signal parent4_one_dead SIGCHLD).calls) :=
  ⟨by decide, by decide, by decide,
    (reaping_closes_and_marks_the_reaped_workers parent4_one_dead).2.2.2.2.2 (by decide)⟩

end processpool
